import Mathlib

/-!
Verification of the BibTeX entry-resolution pipeline (`refine_bib.py`).

The Python source is shallowly embedded below.  Strings are modelled as
Lean `String`s (lists of characters); the regular expressions of the
source are hand-compiled into executable character-list scanners with the
same backtracking semantics (leftmost match, greedy/lazy repetition,
lookahead), specialised to the two fixed patterns of the source.  The
character classes `\s` and `\w` are modelled over the ASCII range, which
is the range exercised by every statement in this file.
-/

/-! ## Character classes (Python `\s`, `\w`, quote characters) -/

/-- Python whitespace (`str.strip`, `\s`), ASCII range. -/
def isPySpace (c : Char) : Bool :=
  c == ' ' || c == '\t' || c == '\n' || c == '\r' || c == '\x0b' || c == '\x0c'

/-- Python `\w` (ASCII range): letters, digits, underscore. -/
def isWordChar (c : Char) : Bool :=
  c.isAlphanum || c == '_'

/-- The character class `[^,\s]` of the entry pattern (cite keys). -/
def isKeyChar (c : Char) : Bool :=
  !(isPySpace c) && !(c == ',')

/-- The character class `["\']` of the field-value unwrapping pattern. -/
def isQuoteChar (c : Char) : Bool :=
  c == '"' || c == '\x27'

/-! ## String helpers (Python `str.strip`, `str.lower`, `re.sub(r"\s+", " ", -)`) -/

/-- Python `str.strip()` on a character list. -/
def pyStripL (cs : List Char) : List Char :=
  ((cs.dropWhile isPySpace).reverse.dropWhile isPySpace).reverse

/-- Python `str.strip()`. -/
def pyStrip (s : String) : String :=
  String.mk (pyStripL s.data)

/-- Python `str.lower()` (ASCII range). -/
def pyLower (s : String) : String :=
  String.mk (s.data.map Char.toLower)

/-- Python `re.sub(r"\s+", " ", -)`: every maximal whitespace run becomes one space. -/
def collapseWsL : List Char → List Char
  | [] => []
  | [c] => if isPySpace c then [' '] else [c]
  | c :: d :: tl =>
    if isPySpace c then
      if isPySpace d then collapseWsL (d :: tl) else ' ' :: collapseWsL (d :: tl)
    else c :: collapseWsL (d :: tl)

/-- Python `re.sub(r"\s+", " ", -)` on strings. -/
def collapseWs (s : String) : String :=
  String.mk (collapseWsL s.data)

/-! ## The record model (`BibtexEntry`, source lines 18-92) -/

/-- One BibTeX record: `BibtexEntry` (source line 18).  `fields` models the
Python `dict` as an insertion-ordered association list with unique keys. -/
structure BibtexEntry where
  entry_type : String
  cite_key : String
  fields : List (String × String)
deriving DecidableEq, Repr

/-- `BibtexEntry.__init__` (source lines 21-24): the entry type is lowercased. -/
def BibtexEntry.make (entry_type cite_key : String) (fields : List (String × String)) :
    BibtexEntry :=
  ⟨pyLower entry_type, cite_key, fields⟩

/-- Python `self.fields.get(key, "")`. -/
def BibtexEntry.getField (e : BibtexEntry) (key : String) : String :=
  (List.lookup key e.fields).getD ""

/-- `BibtexEntry.get_title` (source lines 26-32): take the `title` field (default
empty), strip, delete every `[{}]` character, collapse whitespace runs, strip. -/
def BibtexEntry.get_title (e : BibtexEntry) : String :=
  let title := pyStrip (e.getField "title")
  let title := String.mk (title.data.filter (fun c => !(c == '{' || c == '}')))
  pyStrip (collapseWs title)

/-- The first pass of `BibtexEntry._balance_braces` (source lines 71-85): scan
left to right with a count of unmatched opening braces; drop a closing brace
seen while the count is zero.  Returns the kept characters and the final count. -/
def balance_braces_go : List Char → Nat → List Char × Nat
  | [], n => ([], n)
  | c :: tl, n =>
    if c = '{' then
      let r := balance_braces_go tl (n + 1)
      ('{' :: r.1, r.2)
    else if c = '}' then
      if n > 0 then
        let r := balance_braces_go tl (n - 1)
        ('}' :: r.1, r.2)
      else balance_braces_go tl n
    else
      let r := balance_braces_go tl n
      (c :: r.1, r.2)

/-- `BibtexEntry._balance_braces` (source lines 67-92) on a character list:
strip, first pass, then append one `}` per unmatched `{`. -/
def balance_bracesL (cs : List Char) : List Char :=
  let t := pyStripL cs
  let r := balance_braces_go t 0
  r.1 ++ List.replicate r.2 '}'

/-- `BibtexEntry._balance_braces` (source lines 67-92). -/
def balance_braces (s : String) : String :=
  String.mk (balance_bracesL s.data)

/-- The fixed field allow-list of `to_bibtex` (source line 37). -/
def essential_fields : List String :=
  ["author", "title", "booktitle", "journal", "year", "pages", "volume", "number"]

/-- The brace-wrapping condition for non-name fields (source line 60):
the value contains a space or one of `- : / .`. -/
def needsBraces (v : List Char) : Bool :=
  v.contains ' ' || v.contains '-' || v.contains ':' || v.contains '/' || v.contains '.'

/-- The `booktitle` special rule (source lines 47-53): truncate at the first
comma (stripping the kept prefix) when a comma exists, balance braces,
collapse whitespace, strip. -/
def cleanBooktitle (v : List Char) : List Char :=
  let v := if v.contains ',' then pyStripL (v.takeWhile (fun c => !(c == ','))) else v
  pyStripL (collapseWsL (balance_bracesL v))

/-- The value formatting of one field inside `to_bibtex` (source lines 44-61). -/
def format_field (key value : String) : String :=
  let v :=
    if pyLower key = "booktitle" then String.mk (cleanBooktitle value.data)
    else value
  if pyLower key ∈ (["title", "booktitle", "journal", "author"] : List String) then
    "\x7b" ++ v ++ "\x7d"
  else if needsBraces v.data then "\x7b" ++ v ++ "\x7d"
  else v

/-- One emitted field line `  key = value,` (source line 62). -/
def field_line (key value : String) : String :=
  "  " ++ key ++ " = " ++ format_field key value ++ ","

/-- The list `lines` built by `BibtexEntry.to_bibtex` (source lines 39-64):
opening `@kind{key,`, a line for each allow-listed, present, non-empty field
in allow-list order, then `}`. -/
def BibtexEntry.to_bibtex_lines (e : BibtexEntry) : List String :=
  ("@" ++ e.entry_type ++ "\x7b" ++ e.cite_key ++ ",")
    :: (essential_fields.filterMap (fun key =>
          match List.lookup key e.fields with
          | some v => if v ≠ "" then some (field_line key v) else none
          | none => none))
    ++ ["\x7d"]

/-- Python `"\n".join(lines)`. -/
def joinLines : List String → String
  | [] => ""
  | [l] => l
  | l :: ls => l ++ "\n" ++ joinLines ls

/-- `BibtexEntry.to_bibtex` (source lines 34-65). -/
def BibtexEntry.to_bibtex (e : BibtexEntry) : String :=
  joinLines e.to_bibtex_lines

/-! ## The record parser (`BibtexParser`, source lines 95-154)

The entry pattern `@(\w+)\s*\{\s*([^,\s]+)\s*,\s*(.*?)\n\s*\}` (DOTALL,
IGNORECASE; it holds no cased literal, so IGNORECASE is inert) and the field
pattern `(\w+)\s*=\s*(.+?)(?=,\s*\w+\s*=|$)` (DOTALL) are hand-compiled into
scanners with Python's backtracking semantics. -/

/-- The suffix `(.*?)\n\s*\}` of the entry pattern at a fixed start: find the
least position holding `\n`, then a maximal whitespace run, then `}`.  Returns
the skipped characters (group 3) and the characters after the `}`. -/
def scanNL : List Char → Option (List Char × List Char)
  | [] => none
  | c :: tl =>
    if c = '\n' then
      if (tl.dropWhile isPySpace).head? = some '}' then
        some ([], (tl.dropWhile isPySpace).tail)
      else
        match scanNL tl with
        | some (g, r) => some (c :: g, r)
        | none => none
    else
      match scanNL tl with
      | some (g, r) => some (c :: g, r)
      | none => none

/-- The suffix `\s*(.*?)\n\s*\}` of the entry pattern: the greedy `\s*` tries
the maximal whitespace run first and backtracks one character at a time. -/
def matchTailGo (cs : List Char) : Nat → Option (List Char × List Char)
  | 0 => scanNL cs
  | w + 1 =>
    match scanNL (cs.drop (w + 1)) with
    | some res => some res
    | none => matchTailGo cs w

/-- The suffix `\s*(.*?)\n\s*\}` of the entry pattern. -/
def matchTail (cs : List Char) : Option (List Char × List Char) :=
  matchTailGo cs (cs.takeWhile isPySpace).length

/-- One attempt to match the entry pattern at the head of `cs`: on success,
the entry type (group 1), cite key (group 2), field text (group 3) and the
rest of the input after the match. -/
def matchEntry (cs : List Char) : Option (String × String × List Char × List Char) :=
  if cs.head? = some '@' then
    let r0 := cs.tail
    let t := r0.takeWhile isWordChar
    if t = [] then none
    else
      let r1 := (r0.drop t.length).dropWhile isPySpace
      if r1.head? = some '{' then
        let r3 := r1.tail.dropWhile isPySpace
        let k := r3.takeWhile isKeyChar
        if k = [] then none
        else
          let r4 := (r3.drop k.length).dropWhile isPySpace
          if r4.head? = some ',' then
            match matchTail r4.tail with
            | some (g, rest) => some (String.mk t, String.mk k, g, rest)
            | none => none
          else none
      else none
  else none

/-- `re.finditer` over the entry pattern: try each position left to right,
resume after each match.  `fuel` bounds the recursion; `cs.length + 1` is
always enough (each step consumes at least one character). -/
def findEntriesGo : Nat → List Char → List (String × String × List Char)
  | 0, _ => []
  | _ + 1, [] => []
  | fuel + 1, c :: tl =>
    match matchEntry (c :: tl) with
    | some (t, k, g, rest) => (t, k, g) :: findEntriesGo fuel rest
    | none => findEntriesGo fuel tl

/-- The lookahead alternative `,\s*\w+\s*=` of the field pattern. -/
def lookaheadFieldSep (cs : List Char) : Bool :=
  if cs.head? = some ',' then
    let r := cs.tail.dropWhile isPySpace
    let w := r.takeWhile isWordChar
    if w = [] then false
    else decide (((r.drop w.length).dropWhile isPySpace).head? = some '=')
  else false

/-- The lookahead alternative `$` (no MULTILINE): end of text, or just before
a final newline. -/
def lookaheadEnd (cs : List Char) : Bool :=
  cs = [] || cs = ['\n']

/-- The full lookahead `(?=,\s*\w+\s*=|$)` of the field pattern. -/
def fieldLookahead (cs : List Char) : Bool :=
  lookaheadFieldSep cs || lookaheadEnd cs

/-- The suffix `(.+?)(?=...)` of the field pattern at a fixed start: grow the
value lazily, one character at a time, until the lookahead holds. -/
def scanVal : List Char → Option (List Char × List Char)
  | [] => none
  | c :: tl =>
    if fieldLookahead tl then some ([c], tl)
    else
      match scanVal tl with
      | some (v, r) => some (c :: v, r)
      | none => none

/-- The suffix `\s*(.+?)(?=...)` of the field pattern: the greedy `\s*` tries
the maximal whitespace run first and backtracks one character at a time. -/
def matchValTailGo (cs : List Char) : Nat → Option (List Char × List Char)
  | 0 => scanVal cs
  | w + 1 =>
    match scanVal (cs.drop (w + 1)) with
    | some res => some res
    | none => matchValTailGo cs w

/-- The suffix `\s*(.+?)(?=...)` of the field pattern. -/
def matchValTail (cs : List Char) : Option (List Char × List Char) :=
  matchValTailGo cs (cs.takeWhile isPySpace).length

/-- One attempt to match the field pattern at the head of `cs`: on success,
the field name (group 1), the raw value (group 2) and the rest of the input
from the lookahead position. -/
def matchField (cs : List Char) : Option (String × List Char × List Char) :=
  let k := cs.takeWhile isWordChar
  if k = [] then none
  else
    let r2 := (cs.drop k.length).dropWhile isPySpace
    if r2.head? = some '=' then
      match matchValTail r2.tail with
      | some (v, rest) => some (String.mk k, v, rest)
      | none => none
    else none

/-- `re.finditer` over the field pattern (fuelled like `findEntriesGo`). -/
def findFieldsGo : Nat → List Char → List (String × List Char)
  | 0, _ => []
  | _ + 1, [] => []
  | fuel + 1, c :: tl =>
    match matchField (c :: tl) with
    | some (k, v, rest) => (k, v) :: findFieldsGo fuel rest
    | none => findFieldsGo fuel tl

/-- Python `re.sub(r",\s*$", "", value)`: drop the last comma when only
whitespace follows it, together with that whitespace. -/
def stripTrailingComma (v : List Char) : List Char :=
  let r := v.reverse.dropWhile isPySpace
  if r.head? = some ',' then r.tail.reverse else v

/-- One anchored unwrapping `re.sub(r"^o(.*)c$", r"\1", v)` (no flags): `^`
matches only the start of the value, `.` spans no newline, and Python's `$`
matches at the end of the value or just before a newline that ends it.  So the
closer sits either at the very end or right before a single final newline; the
greedy `(.*)` prefers the longer interior, i.e. the end-of-value closer.  The
matched span `o interior c` is replaced by the interior, which keeps the final
newline in the second case. -/
def unwrapIf (openP closeP : Char → Bool) (v : List Char) : List Char :=
  let mid := (v.drop 1).dropLast
  if decide (2 ≤ v.length) && openP v.headI && ((v.getLast?.map closeP).getD false)
      && !(mid.contains '\n') then mid
  else if v.getLast? = some '\n' then
    let w := v.dropLast
    let mid2 := (w.drop 1).dropLast
    if decide (2 ≤ w.length) && openP w.headI && ((w.getLast?.map closeP).getD false)
        && !(mid2.contains '\n') then mid2 ++ ['\n']
    else v
  else v

/-- The value cleaning of `BibtexParser._parse_fields` (source lines 142-150):
strip, drop a trailing comma, unwrap one quote pair, unwrap one brace pair. -/
def cleanFieldValue (v : List Char) : List Char :=
  let v := pyStripL v
  let v := stripTrailingComma v
  let v := unwrapIf isQuoteChar isQuoteChar v
  unwrapIf (fun c => c == '{') (fun c => c == '}') v

/-- Python `fields[key] = value` on the insertion-ordered association list:
overwrite in place when the key exists, else append. -/
def dictInsert (m : List (String × String)) (k v : String) : List (String × String) :=
  if m.any (fun p => p.1 == k) then
    m.map (fun p => if p.1 == k then (k, v) else p)
  else m ++ [(k, v)]

/-- `BibtexParser._parse_fields` (source lines 134-154) on a character list. -/
def parse_fieldsL (cs : List Char) : List (String × String) :=
  (findFieldsGo (cs.length + 1) cs).foldl
    (fun m kv => dictInsert m kv.1 (String.mk (cleanFieldValue kv.2))) []

/-- `BibtexParser.parse_content` (source lines 117-132). -/
def BibtexParser.parse_content (content : String) : List BibtexEntry :=
  (findEntriesGo (content.data.length + 1) content.data).map
    (fun x => BibtexEntry.make x.1 x.2.1 (parse_fieldsL x.2.2))

/-! ## The index client (`DBLPSearcher`, source lines 157-356)

The network transport is outside the embedding: the pure decision logic is
modelled on the decoded search hits (`select_hit`, source lines 209-237) and
on the downloaded text (`download_bibtex_from_dblp`, source lines 305-356,
with the response body passed as the `bib_content` argument). -/

/-- A DBLP venue value: a JSON string or a JSON object with a `text` field
(source lines 293-297). -/
inductive DblpVenue where
  | str (s : String)
  | obj (text : String)
deriving DecidableEq, Repr

/-- One search hit, with the fields the source reads: `info.venue` and
`info.url` (absent fields are the empty-string defaults the source uses). -/
structure DblpHit where
  venue : DblpVenue
  url : String
deriving DecidableEq, Repr

/-- Python `needle in haystack` on strings (substring containment). -/
def containsSub (needle : List Char) : List Char → Bool
  | [] => needle.isPrefixOf []
  | c :: tl => needle.isPrefixOf (c :: tl) || containsSub needle tl

/-- `DBLPSearcher._is_arxiv_hit` (source lines 287-299): the venue text
contains `arxiv` or `corr` case-insensitively. -/
def is_arxiv_hit (hit : DblpHit) : Bool :=
  match hit.venue with
  | .str s => containsSub "arxiv".data (pyLower s).data || containsSub "corr".data (pyLower s).data
  | .obj t => containsSub "arxiv".data (pyLower t).data || containsSub "corr".data (pyLower t).data

/-- `DBLPSearcher._filter_arxiv_hits` (source lines 301-303). -/
def filter_arxiv_hits (hits : List DblpHit) : List DblpHit :=
  hits.filter (fun h => !is_arxiv_hit h)

/-- The disambiguation policy of `DBLPSearcher.search_by_title` on a decoded
hit list (source lines 209-237): empty list means no result; otherwise filter
out preprints and accept exactly when one hit survives. -/
def select_hit (hit_list : List DblpHit) : Option DblpHit :=
  if hit_list = [] then none
  else
    let filtered := filter_arxiv_hits hit_list
    if filtered.length = 0 then none
    else if filtered.length = 1 then filtered.head?
    else none

/-- `DBLPSearcher.download_bibtex_from_dblp` (source lines 305-356) with the
fetched response body passed as `bib_content`: fail on a missing URL, an
empty body or an unparseable body; otherwise return the first parsed record
with its cite key overwritten by the original one. -/
def download_bibtex_from_dblp (hit : DblpHit) (bib_content : String)
    (original_cite_key : String) : Option BibtexEntry :=
  if hit.url = "" then none
  else if pyStrip bib_content = "" then none
  else
    match BibtexParser.parse_content bib_content with
    | [] => none
    | entry :: _ => some { entry with cite_key := original_cite_key }

/-! ## The resolution pipeline (`main`, source lines 384-417)

The two network-bound steps are passed as oracles `search` and `download`;
everything else follows the loop body of `main`. -/

/-- The venue text the source reads from a hit (source lines 293-297): the
string itself, or the `text` member of a venue object. -/
def venueText : DblpVenue → String
  | .str s => s
  | .obj t => t

/-- The body of the per-entry loop of `main` (source lines 387-417): the
output record for this entry and, when the entry is kept, its cite key for
the failure report. -/
def resolve_entry (search : String → Option DblpHit)
    (download : DblpHit → String → Option BibtexEntry)
    (entry : BibtexEntry) : BibtexEntry × Option String :=
  let title := entry.get_title
  if title = "" then (entry, some entry.cite_key)
  else
    match search title with
    | none => (entry, some entry.cite_key)
    | some hit =>
      match download hit entry.cite_key with
      | none => (entry, some entry.cite_key)
      | some updated => (updated, none)

/-- The accumulation loop of `main` (source lines 384-417): builds
`updated_entries` and `failed_entries` in input order. -/
def main_loop (search : String → Option DblpHit)
    (download : DblpHit → String → Option BibtexEntry) :
    List BibtexEntry → List BibtexEntry × List String
  | [] => ([], [])
  | e :: rest =>
    let r := resolve_entry search download e
    let rs := main_loop search download rest
    (r.1 :: rs.1, match r.2 with | some k => k :: rs.2 | none => rs.2)

/-! ## Statement vocabulary

Helper definitions used to state the verified properties: the wrapping test
of one anchored unwrap, the character-level shape of the serialized field
region, well-formedness predicates for the round-trip theorem, and the
concrete pipeline instance of the worked example. -/

/-- The interior of a wrapped value: everything but the first and last
character. -/
def innerOf (v : List Char) : List Char :=
  (v.drop 1).dropLast

/-- The condition under which one anchored unwrap `re.sub(r"^o(.*)c$", ...)`
fires with the closer at the very end of the value: length at least two,
matching end characters, no newline inside. -/
def wrapTest (openP closeP : Char → Bool) (v : List Char) : Bool :=
  decide (2 ≤ v.length) && openP v.headI && ((v.getLast?.map closeP).getD false)
    && !((innerOf v).contains '\n')

/-- The before-final-newline variant of the wrap test: Python's `$` also
matches just before a newline that ends the value, so an unwrapping also
fires when the value ends in a newline and the part before that newline is
exactly wrapped; the final newline survives into the result. -/
def wrapTestNL (openP closeP : Char → Bool) (v : List Char) : Bool :=
  decide (v.getLast? = some '\n') && wrapTest openP closeP v.dropLast

/-- The serialized field region of a record, at character level: for each
`(name, formatted value)` pair a stretch `name = value,`, consecutive
stretches separated by a newline and the two-space indent of the next line. -/
def fieldRegion : List (String × String) → List Char
  | [] => []
  | [(k, v)] => k.data ++ ' ' :: '=' :: ' ' :: (v.data ++ [','])
  | (k, v) :: rest =>
    k.data ++ ' ' :: '=' :: ' ' :: (v.data ++ ',' :: '\n' :: ' ' :: ' ' :: fieldRegion rest)

/-- A character that survives the serialize/parse round trip inside a field
value: no brace, no comma, no quote, and no whitespace other than a space. -/
def cleanValueChar (c : Char) : Bool :=
  !(c == '{') && !(c == '}') && !(c == ',') && !(isQuoteChar c) &&
    (!(isPySpace c) || c == ' ')

/-- A field fit for the round-trip theorem: an allow-listed name, clean value
characters, and a value that is not whitespace-only unless empty. -/
def goodField (kv : String × String) : Prop :=
  kv.1 ∈ essential_fields ∧ (∀ c ∈ kv.2.data, cleanValueChar c = true) ∧
    (kv.2 ≠ "" → pyStrip kv.2 ≠ "")

/-- An entry type fit for the round-trip theorem: non-empty, already
lowercase, word characters only. -/
def goodKind (t : String) : Prop :=
  t ≠ "" ∧ pyLower t = t ∧ ∀ c ∈ t.data, isWordChar c = true

/-- A cite key fit for the round-trip theorem: non-empty, no whitespace, no
comma. -/
def goodKey (k : String) : Prop :=
  k ≠ "" ∧ ∀ c ∈ k.data, isKeyChar c = true

/-- The raw (group 2) values the field pattern captures on a serialized field
region: the last field's raw value carries the trailing comma (the lookahead
`$` sits past it), the others end at their separating comma. -/
def fieldRawPairs : List (String × String) → List (String × List Char)
  | [] => []
  | [(k, v)] => [(k, v.data ++ [','])]
  | (k, v) :: rest => (k, v.data) :: fieldRawPairs rest

/-- The value of one field after the wrapping step of `to_bibtex` is undone:
the cleaned `booktitle` value, or the value itself (the `let v` of source
lines 44-53 before lines 56-61 wrap it). -/
def formatInner (key value : String) : String :=
  if pyLower key = "booktitle" then String.mk (cleanBooktitle value.data) else value

/-- The allow-listed, present, non-empty fields of a field map, in allow-list
order, as `(name, stored value)` pairs: the pairs behind the emitted lines of
`to_bibtex` (source lines 44-63). -/
def emittedPairs (fields : List (String × String)) : List (String × String) :=
  essential_fields.filterMap (fun key =>
    match List.lookup key fields with
    | some v => if v ≠ "" then some (key, v) else none
    | none => none)

/-- The emitted pairs with each value as printed by `format_field`: the
`(name, printed value)` pairs whose region the serialized record carries. -/
def serializedPairs (fields : List (String × String)) : List (String × String) :=
  (emittedPairs fields).map (fun kv => (kv.1, format_field kv.1 kv.2))

/-- The maximal whitespace-free runs of a character list, in order (fuelled
like the scanners: `length + 1` is always enough fuel).  The amended title
claim reads: the title is the brace-free field value's runs joined by single
spaces. -/
def wsRuns : Nat → List Char → List (List Char)
  | 0, _ => []
  | _ + 1, [] => []
  | fuel + 1, c :: tl =>
    if isPySpace c then wsRuns fuel tl
    else ((c :: tl).takeWhile (fun d => !(isPySpace d)))
        :: wsRuns fuel ((c :: tl).dropWhile (fun d => !(isPySpace d)))

/-- The worked example's input record text (spec §8.7), in the line layout of
§4.2 (a record ends at a `}` on its own line). -/
def exInput : String :=
  "@article\x7bab12,\n  title = \x7bDeep Learning\x7d,\n  author = \x7bX Y\x7d,\n  venue = \x7bnoise\x7d\n\x7d"

/-- The worked example's single non-arXiv candidate. -/
def exHit : DblpHit :=
  ⟨.str "ICML", "https://dblp.org/rec/conf/icml/x"⟩

/-- The worked example's retrieved canonical text, in the line layout of
§4.2. -/
def exDownloaded : String :=
  "@article\x7bnewkey,\n  title=\x7bDeep Learning\x7d,\n  author=\x7bX Y\x7d,\n  year=\x7b2020\x7d\n\x7d"

/-- The worked example's search oracle: the index returns the one non-arXiv
candidate, and the disambiguation policy of the source selects from it. -/
def exSearch (_title : String) : Option DblpHit :=
  select_hit [exHit]

/-- The worked example's retrieval oracle: the response body is the retrieved
canonical text. -/
def exDownload (hit : DblpHit) (key : String) : Option BibtexEntry :=
  download_bibtex_from_dblp hit exDownloaded key

/-- The worked example's pipeline output, serialized. -/
def exOutput : List String :=
  ((main_loop exSearch exDownload (BibtexParser.parse_content exInput)).1).map
    BibtexEntry.to_bibtex

/-! ## General helper lemmas -/

theorem filterMap_guard_eq_map_filter {α β : Type} (p : α → Bool) (f : α → β) (l : List α) :
    l.filterMap (fun a => if p a then some (f a) else none) = (l.filter p).map f := by
  induction l with
  | nil => rfl
  | cons a l ih => by_cases h : p a <;> simp [h, ih]

/-! ## C5: the minimal serialization is the allow-list filter, in order -/

theorem to_bibtex_lines_eq (e : BibtexEntry) :
    e.to_bibtex_lines
      = ("@" ++ e.entry_type ++ "\x7b" ++ e.cite_key ++ ",")
        :: ((essential_fields.filter (fun k => e.getField k != "")).map
              (fun k => field_line k (e.getField k)))
        ++ ["\x7d"] := by
  unfold BibtexEntry.to_bibtex_lines
  rw [← filterMap_guard_eq_map_filter]
  have hfun : ∀ key : String,
      (match List.lookup key e.fields with
        | some v => if v ≠ "" then some (field_line key v) else none
        | none => none)
      = if (e.getField key != "") = true then some (field_line key (e.getField key))
        else none := by
    intro key
    cases h : List.lookup key e.fields with
    | none => simp [BibtexEntry.getField, h]
    | some v =>
      by_cases hv : v = "" <;> simp [BibtexEntry.getField, h, hv]
  simp only [hfun]

/-- C5: for every record, the minimal serialization emits field lines only for
names in the fixed allow-list `essential_fields`, in exactly that order, and
omits any allow-listed field whose value is absent from the field map or
empty: the emitted lines are exactly the image of the in-order filter of the
allow-list under the line formatter, between the opening tag line and the
closing brace line. -/
theorem serialize_minimal_allowlist_order (e : BibtexEntry) :
    e.to_bibtex_lines
      = ("@" ++ e.entry_type ++ "\x7b" ++ e.cite_key ++ ",")
        :: ((essential_fields.filter (fun k => e.getField k != "")).map
              (fun k => field_line k (e.getField k)))
        ++ ["\x7d"] :=
  to_bibtex_lines_eq e

/-! ## C1: the disambiguation policy accepts exactly one survivor -/

/-- C1: on a decoded search-hit list, the source's selection returns a hit
exactly when one candidate survives the preprint filter (and then it returns
that survivor); with zero or with two or more survivors it returns none; and
the preprint filter drops a candidate exactly when its venue text contains
`arxiv` or `corr` case-insensitively. -/
theorem search_accepts_iff_unique_nonpreprint (hit_list : List DblpHit) (h : DblpHit) :
    (select_hit hit_list = some h ↔ filter_arxiv_hits hit_list = [h])
    ∧ is_arxiv_hit h =
        (containsSub "arxiv".data (pyLower (venueText h.venue)).data
          || containsSub "corr".data (pyLower (venueText h.venue)).data) := by
  constructor
  · unfold select_hit
    by_cases he : hit_list = []
    · subst he
      simp [filter_arxiv_hits]
    · simp only [he, if_false]
      rcases hF : filter_arxiv_hits hit_list with _ | ⟨x, _ | ⟨y, tl⟩⟩
      · simp
      · simp
      · simp
  · cases hv : h.venue <;> simp [is_arxiv_hit, venueText, hv]

/-! ## C2: the pipeline is a per-entry map -/

/-- C2: for every list of parsed records and any behaviour of the search and
retrieval oracles, the pipeline's output list is the in-order image of the
input list under the per-entry resolution step, so it has exactly one output
record per input record in input order; and each per-entry result is either
the unchanged original or the record produced by a successful search plus
retrieval. -/
theorem pipeline_preserves_order_and_count (search : String → Option DblpHit)
    (download : DblpHit → String → Option BibtexEntry) (entries : List BibtexEntry) :
    (main_loop search download entries).1
      = entries.map (fun e => (resolve_entry search download e).1)
    ∧ ∀ e : BibtexEntry,
        (resolve_entry search download e).1 = e ∨
        ∃ hit updated, search e.get_title = some hit ∧
          download hit e.cite_key = some updated ∧
          (resolve_entry search download e).1 = updated := by
  constructor
  · induction entries with
    | nil => rfl
    | cons e rest ih => simp [main_loop, ih]
  · intro e
    unfold resolve_entry
    by_cases ht : e.get_title = ""
    · simp [ht]
    · simp only [ht, if_false]
      cases hs : search e.get_title with
      | none => simp
      | some hit =>
        cases hd : download hit e.cite_key with
        | none => simp [hd]
        | some updated => exact Or.inr ⟨hit, updated, rfl, hd, by simp [hd]⟩

/-! ## C3: brace balancing -/

theorem prefix_append_cases {α : Type} {p a b : List α} (h : p <+: a ++ b) :
    p <+: a ∨ ∃ q, q <+: b ∧ p = a ++ q := by
  by_cases hl : p.length ≤ a.length
  · exact Or.inl (List.prefix_of_prefix_length_le h (List.prefix_append a b) hl)
  · right
    have ha : a <+: p := List.prefix_of_prefix_length_le (List.prefix_append a b) h (by omega)
    obtain ⟨q, rfl⟩ := ha
    refine ⟨q, ?_, rfl⟩
    obtain ⟨r, hr⟩ := h
    rw [List.append_assoc] at hr
    exact ⟨r, List.append_cancel_left hr⟩

theorem balance_go_open (tl : List Char) (n : Nat) :
    balance_braces_go ('{' :: tl) n
      = ('{' :: (balance_braces_go tl (n + 1)).1, (balance_braces_go tl (n + 1)).2) := rfl

theorem balance_go_close_pos (tl : List Char) {n : Nat} (h : 0 < n) :
    balance_braces_go ('}' :: tl) n
      = ('}' :: (balance_braces_go tl (n - 1)).1, (balance_braces_go tl (n - 1)).2) := by
  simp only [balance_braces_go, if_true]
  rw [if_pos h, if_neg (show ¬ ('}' : Char) = '{' by decide)]

theorem balance_go_close_zero (tl : List Char) :
    balance_braces_go ('}' :: tl) 0 = balance_braces_go tl 0 := rfl

theorem balance_go_other {c : Char} (hc : ¬ c = '{') (hc2 : ¬ c = '}') (tl : List Char)
    (n : Nat) :
    balance_braces_go (c :: tl) n
      = (c :: (balance_braces_go tl n).1, (balance_braces_go tl n).2) := by
  simp only [balance_braces_go]
  rw [if_neg hc, if_neg hc2]

theorem balance_go_invariant (cs : List Char) : ∀ n : Nat,
    (balance_braces_go cs n).2 + List.count '}' (balance_braces_go cs n).1
      = n + List.count '{' (balance_braces_go cs n).1
    ∧ ∀ p, p <+: (balance_braces_go cs n).1 →
        List.count '}' p ≤ n + List.count '{' p := by
  induction cs with
  | nil =>
    intro n
    refine ⟨by simp [balance_braces_go], ?_⟩
    intro p hp
    have hpn : p = [] := List.prefix_nil.mp (by simpa [balance_braces_go] using hp)
    subst hpn
    simp
  | cons c tl ih =>
    intro n
    by_cases hc : c = '{'
    · subst hc
      obtain ⟨h1, h2⟩ := ih (n + 1)
      constructor
      · rw [balance_go_open]
        simp only [List.count_cons_self,
          List.count_cons_of_ne (by decide : ('}' : Char) ≠ '{')]
        omega
      · intro p hp
        rw [balance_go_open] at hp
        rcases List.prefix_cons_iff.mp hp with hnil | ⟨t, rfl, ht⟩
        · subst hnil; simp
        · have := h2 t ht
          simp only [List.count_cons_self,
            List.count_cons_of_ne (by decide : ('}' : Char) ≠ '{')]
          omega
    · by_cases hc2 : c = '}'
      · subst hc2
        by_cases hn : 0 < n
        · obtain ⟨h1, h2⟩ := ih (n - 1)
          constructor
          · rw [balance_go_close_pos tl hn]
            simp only [List.count_cons_self,
              List.count_cons_of_ne (by decide : ('{' : Char) ≠ '}')]
            omega
          · intro p hp
            rw [balance_go_close_pos tl hn] at hp
            rcases List.prefix_cons_iff.mp hp with hnil | ⟨t, rfl, ht⟩
            · subst hnil; simp
            · have := h2 t ht
              simp only [List.count_cons_self,
                List.count_cons_of_ne (by decide : ('{' : Char) ≠ '}')]
              omega
        · obtain ⟨h1, h2⟩ := ih n
          have hz : n = 0 := by omega
          subst hz
          rw [balance_go_close_zero]
          exact ⟨h1, h2⟩
      · obtain ⟨h1, h2⟩ := ih n
        constructor
        · rw [balance_go_other hc hc2]
          simp only [List.count_cons_of_ne (fun h => hc2 h.symm),
            List.count_cons_of_ne (fun h => hc h.symm)]
          omega
        · intro p hp
          rw [balance_go_other hc hc2] at hp
          rcases List.prefix_cons_iff.mp hp with hnil | ⟨t, rfl, ht⟩
          · subst hnil; simp
          · have := h2 t ht
            simp only [List.count_cons_of_ne (fun h => hc2 h.symm),
              List.count_cons_of_ne (fun h => hc h.symm)]
            omega

/-- C3: for every input string, the output of the brace-balancing function
contains an equal number of `{` and `}` characters, and every prefix of the
output has a non-negative running brace balance (at least as many `{` as `}`
seen so far). -/
theorem balance_braces_output_balanced (s : String) :
    List.count '{' (balance_braces s).data = List.count '}' (balance_braces s).data
    ∧ ∀ p : List Char, p <+: (balance_braces s).data →
        List.count '}' p ≤ List.count '{' p := by
  obtain ⟨h1, h2⟩ := balance_go_invariant (pyStripL s.data) 0
  have hdata : (balance_braces s).data
      = (balance_braces_go (pyStripL s.data) 0).1
        ++ List.replicate (balance_braces_go (pyStripL s.data) 0).2 '}' := rfl
  constructor
  · rw [hdata, List.count_append, List.count_append, List.count_replicate,
      List.count_replicate]
    simp only [show (('}' : Char) == '{') = false from rfl,
      show (('}' : Char) == '}') = true from rfl]
    rw [if_pos trivial, if_neg (show ¬ ((false : Bool) = true) by decide)]
    omega
  · intro p hp
    rw [hdata] at hp
    rcases prefix_append_cases hp with hp1 | ⟨q, hq, rfl⟩
    · have := h2 p hp1
      omega
    · rw [List.count_append, List.count_append]
      have hq1 : List.count '}' q = q.length := by
        rw [List.count_eq_length]
        intro b hb
        exact (List.eq_of_mem_replicate (hq.subset hb)).symm
      have hq2 : List.count '{' q = 0 := by
        rw [List.count_eq_zero]
        intro hmem
        have hbad := List.eq_of_mem_replicate (hq.subset hmem)
        exact absurd hbad (by decide)
      have hlen : q.length ≤ (balance_braces_go (pyStripL s.data) 0).2 := by
        have := hq.length_le
        simpa using this
      omega

theorem balance_braces_output_balanced_witness :
    (['a', '{'] <+: (balance_braces "\x7d\x7da\x7bb").data)
    ∧ List.count '}' ['a', '{'] ≤ List.count '{' ['a', '{'] :=
  ⟨by decide, (balance_braces_output_balanced "\x7d\x7da\x7bb").2 ['a', '{'] (by decide)⟩

/-! ## C7: field-value unwrapping layers -/

theorem unwrapIf_eq_wrapTest (oP cP : Char → Bool) (w : List Char) :
    unwrapIf oP cP w
      = if wrapTest oP cP w = true then innerOf w
        else if wrapTestNL oP cP w = true then innerOf w.dropLast ++ ['\n']
        else w := by
  show (if (decide (2 ≤ w.length) && oP w.headI && ((w.getLast?.map cP).getD false)
        && !((innerOf w).contains '\n')) = true then innerOf w
      else if w.getLast? = some '\n' then
        (if (decide (2 ≤ w.dropLast.length) && oP w.dropLast.headI
              && ((w.dropLast.getLast?.map cP).getD false)
              && !((innerOf w.dropLast).contains '\n')) = true
         then innerOf w.dropLast ++ ['\n'] else w)
      else w)
    = if wrapTest oP cP w = true then innerOf w
      else if wrapTestNL oP cP w = true then innerOf w.dropLast ++ ['\n']
      else w
  rw [show (decide (2 ≤ w.length) && oP w.headI && ((w.getLast?.map cP).getD false)
      && !((innerOf w).contains '\n')) = wrapTest oP cP w from rfl]
  rw [show (decide (2 ≤ w.dropLast.length) && oP w.dropLast.headI
      && ((w.dropLast.getLast?.map cP).getD false)
      && !((innerOf w.dropLast).contains '\n')) = wrapTest oP cP w.dropLast from rfl]
  by_cases h1 : wrapTest oP cP w = true
  · rw [if_pos h1, if_pos h1]
  · rw [if_neg h1, if_neg h1]
    by_cases h2 : w.getLast? = some '\n'
    · rw [if_pos h2]
      by_cases h3 : wrapTest oP cP w.dropLast = true
      · have hnl : wrapTestNL oP cP w = true := by
          unfold wrapTestNL
          rw [h3, decide_eq_true h2]
          rfl
        rw [if_pos h3, if_pos hnl]
      · have hnl : wrapTestNL oP cP w = false := by
          unfold wrapTestNL
          rw [Bool.of_not_eq_true h3]
          simp
        rw [if_neg h3, hnl]
        simp only [Bool.false_eq_true, if_false]
    · rw [if_neg h2]
      have hnl : wrapTestNL oP cP w = false := by
        unfold wrapTestNL
        rw [decide_eq_false h2]
        simp
      rw [hnl]
      simp only [Bool.false_eq_true, if_false]

/-- C7 counterexample: on the raw field value `"{x}"` (a brace pair inside a
quote pair) the source's cleaning removes BOTH the quote pair and the brace
pair, returning `x`.  The claim allows at most one unwrapping, so it predicts
either the untouched value or its single-layer interior `{x}` — the result is
neither. -/
theorem field_value_double_unwrap :
    cleanFieldValue ("\"\x7bx\x7d\"").data = ['x']
    ∧ stripTrailingComma (pyStripL ("\"\x7bx\x7d\"").data) ≠ ['x']
    ∧ innerOf (stripTrailingComma (pyStripL ("\"\x7bx\x7d\"").data)) ≠ ['x'] := by
  decide

theorem unwrapIf_cases (oP cP : Char → Bool) (w : List Char) :
    (wrapTest oP cP w = true ∧ unwrapIf oP cP w = innerOf w)
    ∨ (wrapTest oP cP w = false ∧ wrapTestNL oP cP w = true
        ∧ unwrapIf oP cP w = innerOf w.dropLast ++ ['\n'])
    ∨ (wrapTest oP cP w = false ∧ wrapTestNL oP cP w = false
        ∧ unwrapIf oP cP w = w) := by
  rw [unwrapIf_eq_wrapTest]
  by_cases h1 : wrapTest oP cP w = true
  · rw [if_pos h1]
    exact Or.inl ⟨h1, rfl⟩
  · rw [if_neg h1]
    by_cases h2 : wrapTestNL oP cP w = true
    · rw [if_pos h2]
      exact Or.inr (Or.inl ⟨Bool.of_not_eq_true h1, h2, rfl⟩)
    · rw [if_neg h2]
      exact Or.inr (Or.inr ⟨Bool.of_not_eq_true h1, Bool.of_not_eq_true h2, rfl⟩)

/-- C7 amended: after trimming surrounding whitespace and stripping one
trailing comma, the source removes at most two layers of wrapping, in order —
one pair of enclosing quote characters first, then one pair of enclosing
braces from the result.  Each of the two stages fires exactly when the
anchored pattern matches under Python's `$` semantics: either the closer is
the last character, or the value ends in a newline and the closer stands just
before it (then that final newline survives into the result); in both cases
the interior spans no newline.  So a quote pair and a brace pair can both be
stripped from one value, and a value ending in closer-then-newline is
unwrapped with the newline kept. -/
theorem field_value_unwrap_layers (v : List Char) :
    ∃ w1 : List Char,
      ((wrapTest isQuoteChar isQuoteChar (stripTrailingComma (pyStripL v)) = true
          ∧ w1 = innerOf (stripTrailingComma (pyStripL v)))
        ∨ (wrapTest isQuoteChar isQuoteChar (stripTrailingComma (pyStripL v)) = false
          ∧ wrapTestNL isQuoteChar isQuoteChar (stripTrailingComma (pyStripL v)) = true
          ∧ w1 = innerOf (stripTrailingComma (pyStripL v)).dropLast ++ ['\n'])
        ∨ (wrapTest isQuoteChar isQuoteChar (stripTrailingComma (pyStripL v)) = false
          ∧ wrapTestNL isQuoteChar isQuoteChar (stripTrailingComma (pyStripL v)) = false
          ∧ w1 = stripTrailingComma (pyStripL v)))
      ∧ ((wrapTest (fun c => c == '{') (fun c => c == '}') w1 = true
          ∧ cleanFieldValue v = innerOf w1)
        ∨ (wrapTest (fun c => c == '{') (fun c => c == '}') w1 = false
          ∧ wrapTestNL (fun c => c == '{') (fun c => c == '}') w1 = true
          ∧ cleanFieldValue v = innerOf w1.dropLast ++ ['\n'])
        ∨ (wrapTest (fun c => c == '{') (fun c => c == '}') w1 = false
          ∧ wrapTestNL (fun c => c == '{') (fun c => c == '}') w1 = false
          ∧ cleanFieldValue v = w1)) := by
  refine ⟨unwrapIf isQuoteChar isQuoteChar (stripTrailingComma (pyStripL v)), ?_, ?_⟩
  · rcases unwrapIf_cases isQuoteChar isQuoteChar (stripTrailingComma (pyStripL v)) with
      ⟨h1, he⟩ | ⟨h1, h2, he⟩ | ⟨h1, h2, he⟩
    · exact Or.inl ⟨h1, he⟩
    · exact Or.inr (Or.inl ⟨h1, h2, he⟩)
    · exact Or.inr (Or.inr ⟨h1, h2, he⟩)
  · rcases unwrapIf_cases (fun c => c == '{') (fun c => c == '}')
        (unwrapIf isQuoteChar isQuoteChar (stripTrailingComma (pyStripL v))) with
      ⟨h1, he⟩ | ⟨h1, h2, he⟩ | ⟨h1, h2, he⟩
    · exact Or.inl ⟨h1, he⟩
    · exact Or.inr (Or.inl ⟨h1, h2, he⟩)
    · exact Or.inr (Or.inr ⟨h1, h2, he⟩)

/-! ## C8: title extraction -/

theorem collapse_cons_not_ws {c : Char} (h : isPySpace c = false) (tl : List Char) :
    collapseWsL (c :: tl) = c :: collapseWsL tl := by
  cases tl with
  | nil => simp [collapseWsL, h]
  | cons d tl' => simp [collapseWsL, h]

theorem collapse_ws_is_space (l : List Char) :
    ∀ c ∈ collapseWsL l, isPySpace c = true → c = ' ' := by
  induction l with
  | nil => intro c hc; simp [collapseWsL] at hc
  | cons a tl ih =>
    intro c hc hws
    cases tl with
    | nil =>
      by_cases ha : isPySpace a = true
      · simp [collapseWsL, ha] at hc
        exact hc
      · simp [collapseWsL, Bool.of_not_eq_true ha] at hc
        subst hc
        simp [Bool.of_not_eq_true ha] at hws
    | cons d tl' =>
      by_cases ha : isPySpace a = true
      · by_cases hd : isPySpace d = true
        · simp only [collapseWsL, ha, hd, if_true] at hc
          exact ih c hc hws
        · simp only [collapseWsL, ha, hd, if_true, if_false] at hc
          rcases List.mem_cons.mp hc with h1 | h1
          · exact h1
          · exact ih c h1 hws
      · simp only [collapseWsL, Bool.of_not_eq_true ha, if_false] at hc
        rcases List.mem_cons.mp hc with h1 | h1
        · subst h1
          rw [hws] at ha
          exact absurd rfl ha
        · exact ih c h1 hws

theorem collapse_mem (l : List Char) :
    ∀ c ∈ collapseWsL l, c ∈ l ∨ c = ' ' := by
  induction l with
  | nil => intro c hc; simp [collapseWsL] at hc
  | cons a tl ih =>
    intro c hc
    cases tl with
    | nil =>
      by_cases ha : isPySpace a = true
      · simp [collapseWsL, ha] at hc
        exact Or.inr hc
      · simp [collapseWsL, Bool.of_not_eq_true ha] at hc
        exact Or.inl (by simp [hc])
    | cons d tl' =>
      by_cases ha : isPySpace a = true
      · by_cases hd : isPySpace d = true
        · simp only [collapseWsL, ha, hd, if_true] at hc
          rcases ih c hc with h1 | h1
          · exact Or.inl (List.mem_cons_of_mem a h1)
          · exact Or.inr h1
        · simp only [collapseWsL, ha, hd, if_true, if_false] at hc
          rcases List.mem_cons.mp hc with h1 | h1
          · exact Or.inr h1
          · rcases ih c h1 with h2 | h2
            · exact Or.inl (List.mem_cons_of_mem a h2)
            · exact Or.inr h2
      · simp only [collapseWsL, Bool.of_not_eq_true ha, if_false] at hc
        rcases List.mem_cons.mp hc with h1 | h1
        · exact Or.inl (by simp [h1])
        · rcases ih c h1 with h2 | h2
          · exact Or.inl (List.mem_cons_of_mem a h2)
          · exact Or.inr h2

theorem collapse_chain (l : List Char) :
    (collapseWsL l).Chain' (fun a b => ¬(isPySpace a = true ∧ isPySpace b = true)) := by
  induction l with
  | nil => simp [collapseWsL]
  | cons a tl ih =>
    cases tl with
    | nil =>
      by_cases ha : isPySpace a = true
      · simp [collapseWsL, ha]
      · simp [collapseWsL, Bool.of_not_eq_true ha]
    | cons d tl' =>
      by_cases ha : isPySpace a = true
      · by_cases hd : isPySpace d = true
        · simpa only [collapseWsL, ha, hd, if_true] using ih
        · simp only [collapseWsL, ha, hd, if_true, if_false]
          rw [collapse_cons_not_ws (Bool.of_not_eq_true hd) tl'] at ih ⊢
          exact List.chain'_cons'.mpr ⟨fun y hy => by
            simp only [List.head?_cons, Option.mem_def, Option.some.injEq] at hy
            subst hy
            simp [hd], ih⟩
      · simp only [collapseWsL, Bool.of_not_eq_true ha, if_false]
        exact List.chain'_cons'.mpr ⟨fun y _ => by simp [ha], ih⟩

theorem collapse_filter (q : Char → Bool) (hq : ∀ c, isPySpace c = true → q c = false)
    (l : List Char) : (collapseWsL l).filter q = l.filter q := by
  induction l with
  | nil => rfl
  | cons a tl ih =>
    cases tl with
    | nil =>
      by_cases ha : isPySpace a = true
      · simp [collapseWsL, ha, List.filter_cons, hq ' ' rfl, hq a ha]
      · simp [collapseWsL, Bool.of_not_eq_true ha]
    | cons d tl' =>
      by_cases ha : isPySpace a = true
      · by_cases hd : isPySpace d = true
        · simp only [collapseWsL, ha, hd, if_true]
          rw [ih]
          simp [List.filter_cons, hq a ha]
        · have hd2 : isPySpace d = false := Bool.of_not_eq_true hd
          simp [collapseWsL, ha, hd2, List.filter_cons, hq ' ' rfl, hq a ha, ih]
      · have ha2 : isPySpace a = false := Bool.of_not_eq_true ha
        simp only [collapseWsL, ha2, Bool.false_eq_true, if_false]
        rw [List.filter_cons, List.filter_cons]
        cases hqa : q a <;> simp [hqa, ih]

theorem filter_dropWhile (p q : Char → Bool) (hpq : ∀ c, p c = true → q c = false)
    (l : List Char) : (l.dropWhile p).filter q = l.filter q := by
  induction l with
  | nil => rfl
  | cons a tl ih =>
    by_cases ha : p a = true
    · rw [List.dropWhile_cons, if_pos ha, ih, List.filter_cons, hpq a ha]
      simp
    · rw [List.dropWhile_cons, if_neg ha]

theorem filter_pyStrip (q : Char → Bool) (hq : ∀ c, isPySpace c = true → q c = false)
    (l : List Char) : (pyStripL l).filter q = l.filter q := by
  unfold pyStripL
  rw [List.filter_reverse, filter_dropWhile isPySpace q hq, List.filter_reverse,
    List.reverse_reverse, filter_dropWhile isPySpace q hq]

theorem pyStrip_within (l : List Char) : pyStripL l <:+: l := by
  have h2 : (l.dropWhile isPySpace).reverse.dropWhile isPySpace
      <:+ (l.dropWhile isPySpace).reverse := List.dropWhile_suffix isPySpace
  have h1 : pyStripL l <+: l.dropWhile isPySpace := by
    unfold pyStripL
    have h3 := List.reverse_prefix.mpr h2
    simpa using h3
  exact h1.isInfix.trans (List.dropWhile_suffix isPySpace).isInfix

theorem head_dropWhile_not {p : Char → Bool} {l : List Char} :
    ∀ c, (l.dropWhile p).head? = some c → p c = false := by
  induction l with
  | nil => intro c hc; simp at hc
  | cons a tl ih =>
    intro c hc
    by_cases ha : p a = true
    · rw [List.dropWhile_cons, if_pos ha] at hc
      exact ih c hc
    · rw [List.dropWhile_cons, if_neg ha] at hc
      simp at hc
      subst hc
      exact Bool.of_not_eq_true ha

theorem getLast?_suffix_eq {l₁ l₂ : List Char} (h : l₁ <:+ l₂) (hne : l₁ ≠ []) :
    l₁.getLast? = l₂.getLast? := by
  obtain ⟨t, rfl⟩ := h
  rw [List.getLast?_append]
  cases hl : l₁.getLast? with
  | none => exact absurd (List.getLast?_eq_none_iff.mp hl) hne
  | some x => rfl

theorem pyStrip_head_not_ws (l : List Char) :
    ∀ c, (pyStripL l).head? = some c → isPySpace c = false := by
  intro c hc
  unfold pyStripL at hc
  rw [List.head?_reverse] at hc
  by_cases hB : ((l.dropWhile isPySpace).reverse.dropWhile isPySpace) = []
  · rw [hB] at hc
    simp at hc
  · rw [getLast?_suffix_eq (List.dropWhile_suffix isPySpace) hB,
      List.getLast?_reverse] at hc
    exact head_dropWhile_not c hc

theorem pyStrip_getLast_not_ws (l : List Char) :
    ∀ c, (pyStripL l).getLast? = some c → isPySpace c = false := by
  intro c hc
  unfold pyStripL at hc
  rw [List.getLast?_reverse] at hc
  exact head_dropWhile_not c hc

/-- C8 counterexample: on the title value `a {b} c` the source's title
extraction removes the INTERIOR braces and returns `a b c`, while the claim
(strip only the enclosing brace characters; there are none here, and the
whitespace runs are already single spaces) predicts the unchanged `a {b} c`. -/
theorem get_title_removes_inner_braces :
    (BibtexEntry.make "article" "k" [("title", "a \x7bb\x7d c")]).get_title = "a b c"
    ∧ ("a b c" : String) ≠ "a \x7bb\x7d c" := by
  exact ⟨by decide, by decide⟩

theorem wsRuns_nil (f : Nat) : wsRuns f [] = [] := by
  cases f <;> rfl

theorem wsRuns_ws {c : Char} (hc : isPySpace c = true) (f : Nat) (tl : List Char) :
    wsRuns (f + 1) (c :: tl) = wsRuns f tl := by
  rw [wsRuns, if_pos hc]

theorem wsRuns_word {c : Char} (hc : isPySpace c = false) (f : Nat) (tl : List Char) :
    wsRuns (f + 1) (c :: tl)
      = ((c :: tl).takeWhile (fun d => !(isPySpace d)))
        :: wsRuns f ((c :: tl).dropWhile (fun d => !(isPySpace d))) := by
  rw [wsRuns, if_neg (by simp [hc])]

theorem dropWhile_length_le (p : Char → Bool) :
    ∀ l : List Char, (l.dropWhile p).length ≤ l.length := by
  intro l
  induction l with
  | nil => simp
  | cons a tl ih =>
    rw [List.dropWhile_cons]
    by_cases ha : p a = true
    · rw [if_pos ha]
      simp [List.length_cons]
      omega
    · rw [if_neg ha]

theorem wsRuns_fuel : ∀ f1 : Nat, ∀ m : List Char, ∀ f2 : Nat,
    m.length < f1 → m.length < f2 → wsRuns f1 m = wsRuns f2 m := by
  intro f1
  induction f1 with
  | zero =>
    intro m f2 h1 _
    exact absurd h1 (by omega)
  | succ f ih =>
    intro m f2 h1 h2
    cases m with
    | nil => rw [wsRuns_nil, wsRuns_nil]
    | cons c tl =>
      cases f2 with
      | zero => exact absurd h2 (by omega)
      | succ f2p =>
        by_cases hc : isPySpace c = true
        · rw [wsRuns_ws hc, wsRuns_ws hc]
          exact ih tl f2p (by simp [List.length_cons] at h1; omega)
            (by simp [List.length_cons] at h2; omega)
        · have hcf : isPySpace c = false := Bool.of_not_eq_true hc
          rw [wsRuns_word hcf, wsRuns_word hcf]
          congr 1
          have hdw : ((c :: tl).dropWhile (fun d => !(isPySpace d)))
              = tl.dropWhile (fun d => !(isPySpace d)) := by
            rw [List.dropWhile_cons, if_pos (by simp [hcf])]
          have hle := dropWhile_length_le (fun d => !(isPySpace d)) tl
          apply ih
          · rw [hdw]
            simp [List.length_cons] at h1
            omega
          · rw [hdw]
            simp [List.length_cons] at h2
            omega

theorem wsRuns_all_ws : ∀ f : Nat, ∀ S : List Char, S.length < f →
    (∀ c ∈ S, isPySpace c = true) → wsRuns f S = [] := by
  intro f
  induction f with
  | zero =>
    intro S h _
    exact absurd h (by omega)
  | succ f ih =>
    intro S h hws
    cases S with
    | nil => rw [wsRuns_nil]
    | cons c tl =>
      rw [wsRuns_ws (hws c (by simp))]
      exact ih tl (by simp [List.length_cons] at h; omega)
        (fun x hx => hws x (by simp [hx]))

theorem wsRuns_drop_ws : ∀ f : Nat, ∀ S : List Char, S.length < f →
    wsRuns f S = wsRuns f (S.dropWhile isPySpace) := by
  intro f
  induction f with
  | zero =>
    intro S h
    exact absurd h (by omega)
  | succ f ih =>
    intro S h
    cases S with
    | nil => rfl
    | cons c tl =>
      by_cases hc : isPySpace c = true
      · rw [wsRuns_ws hc, List.dropWhile_cons, if_pos hc]
        rw [ih tl (by simp [List.length_cons] at h; omega)]
        apply wsRuns_fuel
        · calc (tl.dropWhile isPySpace).length ≤ tl.length :=
              dropWhile_length_le _ tl
            _ < f := by simp [List.length_cons] at h; omega
        · calc (tl.dropWhile isPySpace).length ≤ tl.length :=
              dropWhile_length_le _ tl
            _ < f + 1 := by simp [List.length_cons] at h; omega
      · rw [List.dropWhile_cons, if_neg hc]

theorem wsRuns_skip_ws_front : ∀ f : Nat, ∀ P Z : List Char, (P ++ Z).length < f →
    (∀ c ∈ P, isPySpace c = true) → wsRuns f (P ++ Z) = wsRuns f Z := by
  intro f
  induction f with
  | zero =>
    intro P Z h _
    exact absurd h (by omega)
  | succ f ih =>
    intro P Z h hP
    cases P with
    | nil => rfl
    | cons p P2 =>
      rw [List.cons_append, wsRuns_ws (hP p (by simp))]
      rw [ih P2 Z (by simp [List.length_append, List.length_cons] at h ⊢; omega)
        (fun c hc => hP c (by simp [hc]))]
      apply wsRuns_fuel
      · simp [List.length_append, List.length_cons] at h ⊢
        omega
      · simp [List.length_append, List.length_cons] at h ⊢
        omega

theorem takeWhile_append_stop {p : Char → Bool} {b : Char} (hb : p b = false) :
    ∀ (A B : List Char),
    (A ++ b :: B).takeWhile p = A.takeWhile p
    ∧ (A ++ b :: B).dropWhile p = A.dropWhile p ++ b :: B := by
  intro A B
  induction A with
  | nil =>
    constructor
    · rw [List.nil_append, List.takeWhile_cons, hb]
      rfl
    · rw [List.nil_append, List.dropWhile_cons, hb]
      rfl
  | cons a A2 ih =>
    by_cases ha : p a = true
    · constructor
      · simp [List.cons_append, List.takeWhile_cons, ha, ih.1]
      · simp [List.cons_append, List.dropWhile_cons, ha, ih.2]
    · have ha2 : p a = false := Bool.of_not_eq_true ha
      constructor
      · simp [List.cons_append, List.takeWhile_cons, ha2]
      · simp [List.cons_append, List.dropWhile_cons, ha2]

theorem wsRuns_ws_suffix : ∀ f : Nat, ∀ Z W : List Char, (Z ++ W).length < f →
    (∀ c ∈ W, isPySpace c = true) → wsRuns f (Z ++ W) = wsRuns f Z := by
  intro f
  induction f with
  | zero =>
    intro Z W h _
    exact absurd h (by omega)
  | succ f ih =>
    intro Z W h hW
    cases W with
    | nil => rw [List.append_nil]
    | cons w W2 =>
      have hwss : isPySpace w = true := hW w (by simp)
      cases Z with
      | nil =>
        rw [List.nil_append, wsRuns_nil]
        exact wsRuns_all_ws (f + 1) (w :: W2) (by simpa using h) hW
      | cons c tl =>
        by_cases hc : isPySpace c = true
        · rw [List.cons_append, wsRuns_ws hc, wsRuns_ws hc]
          exact ih tl (w :: W2) (by simp [List.length_append, List.length_cons] at h ⊢; omega) hW
        · have hcf : isPySpace c = false := Bool.of_not_eq_true hc
          have hbw : (fun d => !(isPySpace d)) w = false := by simp [hwss]
          rw [List.cons_append, wsRuns_word hcf, wsRuns_word hcf]
          rw [show ((c :: (tl ++ w :: W2)) : List Char) = (c :: tl) ++ w :: W2 from rfl]
          rw [(takeWhile_append_stop hbw (c :: tl) W2).1,
            (takeWhile_append_stop hbw (c :: tl) W2).2]
          congr 1
          have hdw : ((c :: tl).dropWhile (fun d => !(isPySpace d)))
              = tl.dropWhile (fun d => !(isPySpace d)) := by
            rw [List.dropWhile_cons, if_pos (by simp [hcf])]
          have hle := dropWhile_length_le (fun d => !(isPySpace d)) tl
          exact ih ((c :: tl).dropWhile (fun d => !(isPySpace d))) (w :: W2)
            (by rw [hdw]; simp [List.length_append, List.length_cons] at h ⊢; omega) hW

/-! ## C9: canonical retrieval overwrites only the cite key -/

theorem matchEntry_head {cs : List Char} {x : String × String × List Char × List Char}
    (h : matchEntry cs = some x) : ∃ tl, cs = '@' :: tl := by
  by_cases hc : cs.head? = some '@'
  · cases cs with
    | nil => simp at hc
    | cons c tl =>
      simp only [List.head?_cons, Option.some.injEq] at hc
      exact ⟨tl, by rw [hc]⟩
  · rw [matchEntry, if_neg hc] at h
    simp at h

theorem findEntriesGo_at_mem {fuel : Nat} {cs : List Char}
    (h : findEntriesGo fuel cs ≠ []) : '@' ∈ cs := by
  induction fuel generalizing cs with
  | zero => simp [findEntriesGo] at h
  | succ n ih =>
    cases cs with
    | nil => simp [findEntriesGo] at h
    | cons c tl =>
      rw [findEntriesGo] at h
      cases hm : matchEntry (c :: tl) with
      | none =>
        rw [hm] at h
        exact List.mem_cons_of_mem c (ih h)
      | some y =>
        obtain ⟨tl2, heq⟩ := matchEntry_head hm
        rw [heq]
        exact List.mem_cons_self '@' tl2

theorem parse_content_ne_nil_strip {content : String} {e : BibtexEntry}
    {rest : List BibtexEntry}
    (hp : BibtexParser.parse_content content = e :: rest) : pyStrip content ≠ "" := by
  have hne : findEntriesGo (content.data.length + 1) content.data ≠ [] := by
    intro hcontra
    rw [BibtexParser.parse_content, hcontra] at hp
    simp at hp
  have hat : '@' ∈ content.data := findEntriesGo_at_mem hne
  intro hs
  have h0 : pyStripL content.data = [] := congrArg String.data hs
  unfold pyStripL at h0
  have h1 : (content.data.dropWhile isPySpace).reverse.dropWhile isPySpace = [] :=
    List.reverse_eq_nil_iff.mp h0
  have h2 := List.dropWhile_eq_nil_iff.mp h1
  have h3 : ∀ x ∈ content.data.dropWhile isPySpace, isPySpace x = true := by
    intro x hx
    exact h2 x (by simpa using hx)
  have h4 : ∀ x ∈ content.data, isPySpace x = true := by
    intro x hx
    rw [← List.takeWhile_append_dropWhile (p := isPySpace) (l := content.data)] at hx
    rcases List.mem_append.mp hx with h5 | h5
    · exact List.mem_takeWhile_imp h5
    · exact h3 x h5
  have h6 := h4 '@' hat
  simp [isPySpace] at h6

/-- C9: whenever the downloaded text parses to at least one record and the
hit carries a locator, the returned record is the first parsed record with
its cite key overwritten by the supplied replacement key — its entry type and
fields are returned unchanged. -/
theorem download_overwrites_key_only (hit : DblpHit) (content : String) (key : String)
    (e : BibtexEntry) (rest : List BibtexEntry)
    (hurl : hit.url ≠ "")
    (hp : BibtexParser.parse_content content = e :: rest) :
    download_bibtex_from_dblp hit content key
      = some ⟨e.entry_type, key, e.fields⟩ := by
  unfold download_bibtex_from_dblp
  rw [if_neg hurl, if_neg (parse_content_ne_nil_strip hp), hp]

theorem download_overwrites_key_only_witness :
    (exHit.url ≠ "")
    ∧ BibtexParser.parse_content "@misc\x7bzz9,\n  year = 1999\n\x7d"
        = [⟨"misc", "zz9", [("year", "1999")]⟩]
    ∧ download_bibtex_from_dblp exHit "@misc\x7bzz9,\n  year = 1999\n\x7d" "orig"
        = some ⟨"misc", "orig", [("year", "1999")]⟩ :=
  ⟨by decide, by decide,
    download_overwrites_key_only exHit "@misc\x7bzz9,\n  year = 1999\n\x7d" "orig"
      ⟨"misc", "zz9", [("year", "1999")]⟩ [] (by decide) (by decide)⟩

/-! ## C10: lowercase entry kinds -/

theorem char_toNat_ofNat (n : Nat) (h : n.isValidChar) : (Char.ofNat n).toNat = n := by
  simp [Char.ofNat, h, Char.ofNatAux, Char.toNat, UInt32.toNat, BitVec.toNat_ofNatLt]

theorem char_toLower_idem (c : Char) : c.toLower.toLower = c.toLower := by
  by_cases h : c.toNat ≥ 65 ∧ c.toNat ≤ 90
  · have hv : (c.toNat + 32).isValidChar := by
      unfold Nat.isValidChar
      omega
    have h2 : ¬ ((Char.ofNat (c.toNat + 32)).toNat ≥ 65
        ∧ (Char.ofNat (c.toNat + 32)).toNat ≤ 90) := by
      rw [char_toNat_ofNat _ hv]
      omega
    simp [Char.toLower, h, h2]
  · simp [Char.toLower, h]

theorem pyLower_idem (s : String) : pyLower (pyLower s) = pyLower s := by
  apply String.ext
  show (s.data.map Char.toLower).map Char.toLower = s.data.map Char.toLower
  rw [List.map_map]
  apply List.map_congr_left
  intro a _
  exact char_toLower_idem a

theorem joinLines_cons_data (l : String) (ls : List String) (h : ls ≠ []) :
    (joinLines (l :: ls)).data = l.data ++ '\n' :: (joinLines ls).data := by
  cases ls with
  | nil => exact absurd rfl h
  | cons m ms =>
    show ((l ++ "\n") ++ joinLines (m :: ms)).data = _
    simp [String.data_append]

/-- C10: the record constructor lowercases the kind tag; every record coming
out of the parser has a lowercase kind (lowercasing it again changes
nothing); an upper-case entry header such as `@ARTICLE` is parsed and its
kind stored lowercase; and serialized output always opens with `@` followed
by the record's (lowercase) kind. -/
theorem entry_kind_lowercase :
    (∀ (t k : String) (f : List (String × String)),
      (BibtexEntry.make t k f).entry_type = pyLower t)
    ∧ (∀ (s : String) (e : BibtexEntry), e ∈ BibtexParser.parse_content s →
        pyLower e.entry_type = e.entry_type)
    ∧ (BibtexParser.parse_content "@ARTICLE\x7bk1,\n\x7d"
        = [BibtexEntry.make "ARTICLE" "k1" []]
      ∧ (BibtexEntry.make "ARTICLE" "k1" []).entry_type = "article")
    ∧ (∀ e : BibtexEntry, ("@" ++ e.entry_type).data <+: e.to_bibtex.data) := by
  refine ⟨fun t k f => rfl, ?_, ⟨by decide, by decide⟩, ?_⟩
  · intro s e he
    unfold BibtexParser.parse_content at he
    rcases List.mem_map.mp he with ⟨x, _, rfl⟩
    exact pyLower_idem x.1
  · intro e
    have h1 : e.to_bibtex.data
        = ("@" ++ e.entry_type ++ "\x7b" ++ e.cite_key ++ ",").data
          ++ '\n' :: (joinLines
            ((essential_fields.filter (fun k => e.getField k != "")).map
              (fun k => field_line k (e.getField k)) ++ ["\x7d"])).data := by
      unfold BibtexEntry.to_bibtex
      rw [to_bibtex_lines_eq e]
      exact joinLines_cons_data _ _ (by simp)
    rw [h1]
    have h2 : ("@" ++ e.entry_type).data
        <+: ("@" ++ e.entry_type ++ "\x7b" ++ e.cite_key ++ ",").data :=
      ⟨("\x7b" ++ e.cite_key ++ ",").data, by simp [String.data_append]⟩
    exact h2.trans (List.prefix_append _ _)

theorem entry_kind_lowercase_witness :
    ((BibtexEntry.make "ARTICLE" "k1" []) ∈ BibtexParser.parse_content "@ARTICLE\x7bk1,\n\x7d")
    ∧ pyLower (BibtexEntry.make "ARTICLE" "k1" []).entry_type
        = (BibtexEntry.make "ARTICLE" "k1" []).entry_type :=
  ⟨by decide, entry_kind_lowercase.2.1 "@ARTICLE\x7bk1,\n\x7d"
    (BibtexEntry.make "ARTICLE" "k1" []) (by decide)⟩

/-! ## C6: the worked example -/

/-- C6 counterexample: on the worked example (one parsed input record, a
search returning exactly one non-arXiv candidate, retrieval yielding the
given canonical text) the pipeline's serialized output is NOT the claimed
text: the claim brace-wraps the year value (`year = {2020}`), but the source
wraps a non-name field only when its value contains a space or one of
`- : / .`, and `2020` contains none, so the year is emitted bare.  Both the
claim's one-line rendering and its multi-line reading are refuted. -/
theorem worked_example_claimed_output_false :
    exOutput
      ≠ ["@article\x7bab12,\n  author = \x7bX Y\x7d,\n  title = \x7bDeep Learning\x7d,\n  year = \x7b2020\x7d,\n\x7d"]
    ∧ exOutput
      ≠ ["@article\x7bab12, author = \x7bX Y\x7d, title = \x7bDeep Learning\x7d, year = \x7b2020\x7d,\x7d"] := by
  exact ⟨by decide, by decide⟩

/-- C6 amended: on the worked example the pipeline's output record keeps the
key `ab12`, keeps only allow-listed fields in the fixed order author, title,
year, and emits the year value BARE (`year = 2020`), since `2020` contains no
space and none of `- : / .`. -/
theorem worked_example_output :
    exOutput
      = ["@article\x7bab12,\n  author = \x7bX Y\x7d,\n  title = \x7bDeep Learning\x7d,\n  year = 2020,\n\x7d"] := by
  decide

/-! ## C4: serialize/reparse round trip — scanning lemmas -/

theorem word_not_ws {c : Char} (h : isWordChar c = true) : isPySpace c = false := by
  by_contra hc
  have hc2 : isPySpace c = true := by simpa using hc
  simp only [isPySpace, Bool.or_eq_true, beq_iff_eq] at hc2
  rcases hc2 with ((((h1 | h1) | h1) | h1) | h1) | h1 <;>
    first
      | (subst h1; exact absurd h (by decide))

theorem word_ne_rbrace {c : Char} (h : isWordChar c = true) : c ≠ '}' := by
  intro hc
  subst hc
  exact absurd h (by decide)

theorem word_ne_nl {c : Char} (h : isWordChar c = true) : c ≠ '\n' := by
  intro hc
  subst hc
  exact absurd h (by decide)

theorem key_not_ws {c : Char} (h : isKeyChar c = true) : isPySpace c = false := by
  rcases Bool.and_eq_true_iff.mp h with ⟨h1, _⟩
  simpa using h1

theorem takeWhile_append_run {p : Char → Bool} {xs : List Char} {y : Char} {ys : List Char}
    (hxs : ∀ c ∈ xs, p c = true) (hy : p y = false) :
    (xs ++ y :: ys).takeWhile p = xs ∧ (xs ++ y :: ys).dropWhile p = y :: ys := by
  induction xs with
  | nil =>
    constructor
    · rw [List.nil_append, List.takeWhile_cons, hy]
      simp
    · rw [List.nil_append, List.dropWhile_cons, hy]
      simp
  | cons a xs ih =>
    have ha : p a = true := hxs a (List.mem_cons_self a xs)
    obtain ⟨ih1, ih2⟩ := ih (fun c hc => hxs c (List.mem_cons_of_mem a hc))
    constructor
    · rw [List.cons_append, List.takeWhile_cons, ha, if_pos rfl, ih1]
    · rw [List.cons_append, List.dropWhile_cons, ha, if_pos rfl, ih2]

theorem dropWhile_cons_not {p : Char → Bool} {y : Char} (hy : p y = false) (ys : List Char) :
    (y :: ys).dropWhile p = y :: ys := by
  rw [List.dropWhile_cons, hy]
  simp

theorem scanNL_cons_not_nl {c : Char} (hc : ¬ c = '\n') (tl : List Char) :
    scanNL (c :: tl) = (scanNL tl).map (fun p => (c :: p.1, p.2)) := by
  simp only [scanNL, if_neg hc]
  cases h : scanNL tl with
  | none => rfl
  | some p => cases p; rfl

theorem scanNL_cons_nl_hit {tl r : List Char} (h : tl.dropWhile isPySpace = '}' :: r) :
    scanNL ('\n' :: tl) = some ([], r) := by
  simp only [scanNL, if_pos rfl, h]
  simp

theorem scanNL_cons_nl_fail {tl : List Char}
    (h : (tl.dropWhile isPySpace).head? ≠ some '}') :
    scanNL ('\n' :: tl) = (scanNL tl).map (fun p => ('\n' :: p.1, p.2)) := by
  simp only [scanNL, if_pos rfl, if_neg h]
  cases hs : scanNL tl with
  | none => rfl
  | some p => cases p; rfl

theorem scanNL_append_no_nl {xs : List Char} (hxs : ∀ c ∈ xs, c ≠ '\n') (cs : List Char) :
    scanNL (xs ++ cs) = (scanNL cs).map (fun p => (xs ++ p.1, p.2)) := by
  induction xs with
  | nil => simp
  | cons a xs ih =>
    have ha : a ≠ '\n' := hxs a (List.mem_cons_self a xs)
    rw [List.cons_append, scanNL_cons_not_nl ha,
      ih (fun c hc => hxs c (List.mem_cons_of_mem a hc))]
    cases scanNL cs with
    | none => rfl
    | some p => rfl

theorem fieldRegion_cons_eq (k v : String) (rest : List (String × String)) :
    fieldRegion ((k, v) :: rest)
      = k.data ++ ' ' :: '=' :: ' ' ::
          (v.data ++ (if rest = [] then [','] else ',' :: '\n' :: ' ' :: ' ' :: fieldRegion rest)) := by
  cases rest with
  | nil => rfl
  | cons q2 r2 => simp [fieldRegion]

theorem scanNL_fieldRegion (qs : List (String × String))
    (hname : ∀ q ∈ qs, q.1.data ≠ [] ∧ ∀ c ∈ q.1.data, isWordChar c = true)
    (hval : ∀ q ∈ qs, ∀ c ∈ q.2.data, c ≠ '\n')
    (hq1 : qs ≠ []) :
    scanNL (fieldRegion qs ++ ['\n', '}']) = some (fieldRegion qs, []) := by
  induction qs with
  | nil => exact absurd rfl hq1
  | cons q rest ih =>
    obtain ⟨k, v⟩ := q
    have hch : ∀ c ∈ k.data ++ ' ' :: '=' :: ' ' :: (v.data ++ [',']), c ≠ '\n' := by
      intro c hc
      rcases List.mem_append.mp hc with h1 | h1
      · exact word_ne_nl ((hname (k, v) (by simp)).2 c h1)
      · simp only [List.mem_cons, List.mem_append] at h1
        rcases h1 with h2 | h2 | h2 | h2 | h2
        · subst h2; decide
        · subst h2; decide
        · subst h2; decide
        · exact hval (k, v) (by simp) c h2
        · simp at h2; subst h2; decide
    cases rest with
    | nil =>
      rw [show fieldRegion [(k, v)]
          = k.data ++ ' ' :: '=' :: ' ' :: (v.data ++ [',']) from rfl]
      rw [scanNL_append_no_nl hch]
      rw [show scanNL (['\n', '}'] : List Char) = some ([], []) from rfl]
      simp
    | cons q2 r2 =>
      have hsub1 : ∀ q ∈ q2 :: r2, q.1.data ≠ [] ∧ ∀ c ∈ q.1.data, isWordChar c = true :=
        fun q hq => hname q (List.mem_cons_of_mem _ hq)
      have hsub2 : ∀ q ∈ q2 :: r2, ∀ c ∈ q.2.data, c ≠ '\n' :=
        fun q hq => hval q (List.mem_cons_of_mem _ hq)
      have ihr := ih hsub1 hsub2 (by simp)
      obtain ⟨c2, t2, hc2⟩ := List.exists_cons_of_ne_nil (hsub1 q2 (by simp)).1
      have hc2w : isWordChar c2 = true := by
        have := (hsub1 q2 (by simp)).2 c2 (by rw [hc2]; simp)
        exact this
      have hFR2 : ∃ Z, fieldRegion (q2 :: r2) = c2 :: Z := by
        obtain ⟨k2, v2⟩ := q2
        rw [fieldRegion_cons_eq]
        simp only at hc2
        rw [hc2]
        exact ⟨_, rfl⟩
      obtain ⟨Z, hZ⟩ := hFR2
      have hshape : fieldRegion ((k, v) :: q2 :: r2) ++ ['\n', '}']
          = (k.data ++ ' ' :: '=' :: ' ' :: (v.data ++ [','])) ++
              '\n' :: ' ' :: ' ' :: (fieldRegion (q2 :: r2) ++ ['\n', '}']) := by
        rw [fieldRegion_cons_eq]
        simp [List.append_assoc]
      rw [hshape]
      rw [scanNL_append_no_nl hch]
      have hanchor : scanNL ('\n' :: ' ' :: ' ' :: (fieldRegion (q2 :: r2) ++ ['\n', '}']))
          = (scanNL (' ' :: ' ' :: (fieldRegion (q2 :: r2) ++ ['\n', '}']))).map
              (fun p => ('\n' :: p.1, p.2)) := by
        apply scanNL_cons_nl_fail
        rw [hZ]
        rw [show ((' ' :: ' ' :: ((c2 :: Z) ++ ['\n', '}'])).dropWhile isPySpace)
            = (c2 :: Z) ++ ['\n', '}'] from ?_]
        · simp only [List.cons_append, List.head?_cons]
          intro hcontra
          exact word_ne_rbrace hc2w (by injection hcontra)
        · rw [List.dropWhile_cons, if_pos (show isPySpace ' ' = true from rfl),
            List.dropWhile_cons, if_pos (show isPySpace ' ' = true from rfl),
            List.cons_append]
          exact dropWhile_cons_not (word_not_ws hc2w) _
      rw [hanchor]
      have hspaces : scanNL (' ' :: ' ' :: (fieldRegion (q2 :: r2) ++ ['\n', '}']))
          = (scanNL (fieldRegion (q2 :: r2) ++ ['\n', '}'])).map
              (fun p => (' ' :: ' ' :: p.1, p.2)) := by
        have := @scanNL_append_no_nl [' ', ' ']
          (by intro c hc; simp at hc; subst hc; decide)
          (fieldRegion (q2 :: r2) ++ ['\n', '}'])
        simpa using this
      rw [hspaces, ihr]
      conv_rhs => rw [fieldRegion_cons_eq k v (q2 :: r2)]
      simp [List.append_assoc]

theorem matchTail_empty_region : matchTail ['\n', '}'] = some ([], []) := by decide

theorem matchTail_three_ws (X : List Char) {res : List Char × List Char}
    (hx : ∃ c Z, X = c :: Z ∧ isPySpace c = false)
    (h : scanNL X = some res) :
    matchTail ('\n' :: ' ' :: ' ' :: X) = some res := by
  obtain ⟨c, Z, rfl, hc⟩ := hx
  have htw : ('\n' :: ' ' :: ' ' :: c :: Z).takeWhile isPySpace = ['\n', ' ', ' '] := by
    rw [List.takeWhile_cons, if_pos (show isPySpace '\n' = true from rfl),
      List.takeWhile_cons, if_pos (show isPySpace ' ' = true from rfl),
      List.takeWhile_cons, if_pos (show isPySpace ' ' = true from rfl),
      List.takeWhile_cons, hc]
    simp
  unfold matchTail
  rw [htw]
  show matchTailGo ('\n' :: ' ' :: ' ' :: c :: Z) (2 + 1) = some res
  rw [matchTailGo]
  rw [show ('\n' :: ' ' :: ' ' :: c :: Z).drop (2 + 1) = c :: Z from rfl, h]

theorem matchEntry_serialized (t k : String) (body G rest : List Char)
    (ht1 : t.data ≠ []) (ht2 : ∀ c ∈ t.data, isWordChar c = true)
    (hk1 : k.data ≠ []) (hk2 : ∀ c ∈ k.data, isKeyChar c = true)
    (hm : matchTail body = some (G, rest)) :
    matchEntry ('@' :: (t.data ++ '{' :: (k.data ++ ',' :: body)))
      = some (t, k, G, rest) := by
  obtain ⟨h1, h2⟩ := @takeWhile_append_run isWordChar t.data '{' (k.data ++ ',' :: body)
    ht2 (show isWordChar '{' = false from rfl)
  obtain ⟨kc, ktl, hkc⟩ := List.exists_cons_of_ne_nil hk1
  have hkcw : isKeyChar kc = true := hk2 kc (by rw [hkc]; simp)
  obtain ⟨h3, h4⟩ := @takeWhile_append_run isKeyChar k.data ',' body
    hk2 (show isKeyChar ',' = false from rfl)
  rw [matchEntry]
  rw [if_pos (show ('@' :: (t.data ++ '{' :: (k.data ++ ',' :: body))).head? = some '@' from rfl)]
  simp only [List.tail_cons]
  rw [h1, if_neg ht1]
  rw [show (t.data ++ '{' :: (k.data ++ ',' :: body)).drop t.data.length
      = '{' :: (k.data ++ ',' :: body) from List.drop_left t.data _]
  rw [dropWhile_cons_not (show isPySpace '{' = false from rfl)]
  rw [if_pos (show ('{' :: (k.data ++ ',' :: body)).head? = some '{' from rfl)]
  simp only [List.tail_cons]
  rw [show (k.data ++ ',' :: body).dropWhile isPySpace = k.data ++ ',' :: body from by
    rw [hkc, List.cons_append]
    exact dropWhile_cons_not (key_not_ws hkcw) _]
  rw [h3, if_neg hk1]
  rw [show (k.data ++ ',' :: body).drop k.data.length = ',' :: body from List.drop_left k.data _]
  rw [dropWhile_cons_not (show isPySpace ',' = false from rfl)]
  rw [if_pos (show (',' :: body).head? = some ',' from rfl)]
  simp only [List.tail_cons]
  rw [hm]

theorem fieldLookahead_of_sep {cs : List Char} (h : lookaheadFieldSep cs = true) :
    fieldLookahead cs = true := by
  unfold fieldLookahead
  rw [h]
  rfl

theorem lookaheadFieldSep_shape (name : String) (rest : List Char)
    (hn1 : name.data ≠ []) (hn2 : ∀ c ∈ name.data, isWordChar c = true) :
    lookaheadFieldSep (',' :: '\n' :: ' ' :: ' ' :: (name.data ++ ' ' :: '=' :: rest)) = true := by
  obtain ⟨c0, t0, hc0⟩ := List.exists_cons_of_ne_nil hn1
  have hr : ('\n' :: ' ' :: ' ' :: (name.data ++ ' ' :: '=' :: rest)).dropWhile isPySpace
      = name.data ++ ' ' :: '=' :: rest := by
    rw [List.dropWhile_cons, if_pos (show isPySpace '\n' = true from rfl),
      List.dropWhile_cons, if_pos (show isPySpace ' ' = true from rfl),
      List.dropWhile_cons, if_pos (show isPySpace ' ' = true from rfl),
      hc0, List.cons_append]
    exact dropWhile_cons_not (word_not_ws (hn2 c0 (by rw [hc0]; simp))) _
  obtain ⟨htw, _⟩ := @takeWhile_append_run isWordChar name.data ' ' ('=' :: rest) hn2
    (show isWordChar ' ' = false from rfl)
  have hr2 : (name.data ++ ' ' :: '=' :: rest).drop name.data.length = ' ' :: '=' :: rest :=
    List.drop_left name.data _
  have hr3 : (' ' :: '=' :: rest).dropWhile isPySpace = '=' :: rest := by
    rw [List.dropWhile_cons, if_pos (show isPySpace ' ' = true from rfl)]
    exact dropWhile_cons_not (show isPySpace '=' = false from rfl) _
  unfold lookaheadFieldSep
  rw [if_pos (show (',' :: '\n' :: ' ' :: ' ' :: (name.data ++ ' ' :: '=' :: rest)).head?
      = some ',' from rfl)]
  simp only [List.tail_cons, hr, htw, hr2, hr3]
  simp [hn1]

theorem scanVal_clean (v : List Char) (rest : List Char) (hv1 : v ≠ [])
    (hv2 : ∀ c ∈ v, c ≠ ',' ∧ c ≠ '\n') (hl : fieldLookahead rest = true) :
    scanVal (v ++ rest) = some (v, rest) := by
  induction v with
  | nil => exact absurd rfl hv1
  | cons c v' ih =>
    cases v' with
    | nil =>
      show scanVal (c :: rest) = some ([c], rest)
      rw [scanVal, if_pos hl]
    | cons d v'' =>
      have hd := hv2 d (by simp)
      have hf : fieldLookahead (d :: (v'' ++ rest)) = false := by
        have hsep : lookaheadFieldSep (d :: (v'' ++ rest)) = false := by
          unfold lookaheadFieldSep
          rw [if_neg]
          intro hcontra
          simp only [List.head?_cons, Option.some.injEq] at hcontra
          exact hd.1 hcontra
        have hend : lookaheadEnd (d :: (v'' ++ rest)) = false := by
          simp only [lookaheadEnd]
          rw [decide_eq_false (by simp), decide_eq_false]
          · rfl
          · intro hcontra
            have hdn : d = '\n' := by
              have := congrArg List.head? hcontra
              simpa using this
            exact hd.2 hdn
        unfold fieldLookahead
        rw [hsep, hend]
        rfl
      show scanVal (c :: (d :: v'' ++ rest)) = some (c :: d :: v'', rest)
      rw [scanVal]
      rw [show ((d :: v'' ++ rest) : List Char) = d :: (v'' ++ rest) from rfl, hf]
      simp only [Bool.false_eq_true, if_false]
      have ihr := ih (by simp) (fun x hx => hv2 x (List.mem_cons_of_mem c hx))
      rw [show ((d :: v'') ++ rest : List Char) = d :: (v'' ++ rest) from rfl] at ihr
      rw [ihr]

theorem scanVal_last (v : List Char) (hv2 : ∀ c ∈ v, c ≠ ',' ∧ c ≠ '\n') :
    scanVal (v ++ [',']) = some (v ++ [','], []) := by
  induction v with
  | nil =>
    show scanVal [','] = some ([','], [])
    rw [scanVal, if_pos (show fieldLookahead [] = true from rfl)]
  | cons c v' ih =>
    have hf : fieldLookahead (v' ++ [',']) = false := by
      cases v' with
      | nil => decide
      | cons d v'' =>
        have hd := hv2 d (by simp)
        have hsep : lookaheadFieldSep (d :: (v'' ++ [','])) = false := by
          unfold lookaheadFieldSep
          rw [if_neg]
          intro hcontra
          simp only [List.head?_cons, Option.some.injEq] at hcontra
          exact hd.1 hcontra
        have hend : lookaheadEnd (d :: (v'' ++ [','])) = false := by
          simp only [lookaheadEnd]
          rw [decide_eq_false (by simp), decide_eq_false]
          · rfl
          · intro hcontra
            have hdn : d = '\n' := by
              have := congrArg List.head? hcontra
              simpa using this
            exact hd.2 hdn
        show fieldLookahead ((d :: v'') ++ [',']) = false
        rw [show ((d :: v'') ++ [','] : List Char) = d :: (v'' ++ [',']) from rfl]
        unfold fieldLookahead
        rw [hsep, hend]
        rfl
    show scanVal (c :: (v' ++ [','])) = some (c :: (v' ++ [',']), [])
    rw [scanVal, hf]
    simp only [Bool.false_eq_true, if_false]
    rw [ih (fun x hx => hv2 x (List.mem_cons_of_mem c hx))]

theorem matchValTail_space (v rest : List Char) {V R : List Char} (hv0 : v ≠ [])
    (hvh : isPySpace v.headI = false) (hs : scanVal (v ++ rest) = some (V, R)) :
    matchValTail (' ' :: (v ++ rest)) = some (V, R) := by
  obtain ⟨c, t, rfl⟩ := List.exists_cons_of_ne_nil hv0
  have hc : isPySpace c = false := by simpa using hvh
  have htw : ((' ' :: ((c :: t) ++ rest)).takeWhile isPySpace) = [' '] := by
    rw [List.takeWhile_cons, if_pos (show isPySpace ' ' = true from rfl),
      List.cons_append, List.takeWhile_cons, hc]
    simp
  unfold matchValTail
  rw [htw]
  show matchValTailGo (' ' :: ((c :: t) ++ rest)) (0 + 1) = some (V, R)
  rw [matchValTailGo]
  rw [show (' ' :: ((c :: t) ++ rest)).drop (0 + 1) = (c :: t) ++ rest from rfl, hs]

theorem matchField_serialized (name : String) (v rest : List Char) {V R : List Char}
    (hn1 : name.data ≠ []) (hn2 : ∀ c ∈ name.data, isWordChar c = true)
    (hv0 : v ≠ []) (hvh : isPySpace v.headI = false)
    (hs : scanVal (v ++ rest) = some (V, R)) :
    matchField (name.data ++ ' ' :: '=' :: ' ' :: (v ++ rest)) = some (name, V, R) := by
  obtain ⟨htw, _⟩ := @takeWhile_append_run isWordChar name.data ' ' ('=' :: ' ' :: (v ++ rest))
    hn2 (show isWordChar ' ' = false from rfl)
  have hr2 : (name.data ++ ' ' :: '=' :: ' ' :: (v ++ rest)).drop name.data.length
      = ' ' :: '=' :: ' ' :: (v ++ rest) := List.drop_left name.data _
  have hr3 : (' ' :: '=' :: ' ' :: (v ++ rest)).dropWhile isPySpace
      = '=' :: ' ' :: (v ++ rest) := by
    rw [List.dropWhile_cons, if_pos (show isPySpace ' ' = true from rfl)]
    exact dropWhile_cons_not (show isPySpace '=' = false from rfl) _
  unfold matchField
  simp only [htw, hr2, hr3]
  rw [if_neg hn1, if_pos (show ('=' :: ' ' :: (v ++ rest)).head? = some '=' from rfl)]
  simp only [List.tail_cons]
  rw [matchValTail_space v rest hv0 hvh hs]

theorem matchField_not_word {c : Char} (hc : isWordChar c = false) (tl : List Char) :
    matchField (c :: tl) = none := by
  unfold matchField
  rw [List.takeWhile_cons, hc]
  simp

theorem findFieldsGo_nil (fuel : Nat) : findFieldsGo fuel [] = [] := by
  cases fuel <;> rfl

theorem findFieldsGo_skip {c : Char} (hc : isWordChar c = false) (tl : List Char) (f : Nat) :
    findFieldsGo (f + 1) (c :: tl) = findFieldsGo f tl := by
  rw [findFieldsGo, matchField_not_word hc]

theorem findFieldsGo_skip4 (f : Nat) (X : List Char) (h : 3 < f) :
    findFieldsGo f (',' :: '\n' :: ' ' :: ' ' :: X) = findFieldsGo (f - 4) X := by
  obtain ⟨f4, rfl⟩ : ∃ f4, f = f4 + 4 := ⟨f - 4, by omega⟩
  rw [show f4 + 4 - 4 = f4 from by omega]
  rw [show f4 + 4 = (f4 + 3) + 1 from rfl, findFieldsGo_skip (by decide) _ _,
    show f4 + 3 = (f4 + 2) + 1 from rfl, findFieldsGo_skip (by decide) _ _,
    show f4 + 2 = (f4 + 1) + 1 from rfl, findFieldsGo_skip (by decide) _ _,
    findFieldsGo_skip (by decide) _ _]

theorem findFieldsGo_region (qs : List (String × String)) :
    ∀ fuel : Nat, (fieldRegion qs).length < fuel →
    (∀ q ∈ qs, q.1.data ≠ [] ∧ (∀ c ∈ q.1.data, isWordChar c = true)) →
    (∀ q ∈ qs, q.2.data ≠ [] ∧ isPySpace (q.2.data.headI) = false
       ∧ ∀ c ∈ q.2.data, c ≠ ',' ∧ c ≠ '\n') →
    findFieldsGo fuel (fieldRegion qs) = fieldRawPairs qs := by
  induction qs with
  | nil =>
    intro fuel _ _ _
    exact findFieldsGo_nil fuel
  | cons q rest ih =>
    obtain ⟨k, v⟩ := q
    intro fuel hfuel hn hv
    have hk := hn (k, v) (by simp)
    have hval := hv (k, v) (by simp)
    obtain ⟨kc, ktl, hkc⟩ := List.exists_cons_of_ne_nil hk.1
    cases rest with
    | nil =>
      have hregion : fieldRegion [(k, v)]
          = k.data ++ ' ' :: '=' :: ' ' :: (v.data ++ [',']) := rfl
      have hmf : matchField (k.data ++ ' ' :: '=' :: ' ' :: (v.data ++ [',']))
          = some (k, v.data ++ [','], []) :=
        matchField_serialized k v.data [','] hk.1 hk.2 hval.1 hval.2.1
          (scanVal_last v.data hval.2.2)
      cases fuel with
      | zero => exact absurd hfuel (by omega)
      | succ f =>
        rw [hregion, hkc, List.cons_append, findFieldsGo, ← List.cons_append, ← hkc, hmf]
        show (k, v.data ++ [',']) :: findFieldsGo f [] = fieldRawPairs [(k, v)]
        rw [findFieldsGo_nil]
        rfl
    | cons q2 r2 =>
      obtain ⟨k2, v2⟩ := q2
      have hk2 := hn (k2, v2) (by simp)
      have hregion : fieldRegion ((k, v) :: (k2, v2) :: r2)
          = k.data ++ ' ' :: '=' :: ' ' ::
              (v.data ++ (',' :: '\n' :: ' ' :: ' ' :: fieldRegion ((k2, v2) :: r2))) := by
        rw [fieldRegion_cons_eq]
        simp
      have hla : fieldLookahead
          (',' :: '\n' :: ' ' :: ' ' :: fieldRegion ((k2, v2) :: r2)) = true := by
        rw [fieldRegion_cons_eq]
        rw [show (if r2 = [] then [','] else ',' :: '\n' :: ' ' :: ' ' :: fieldRegion r2)
            = (if r2 = [] then [','] else ',' :: '\n' :: ' ' :: ' ' :: fieldRegion r2) from rfl]
        exact fieldLookahead_of_sep (lookaheadFieldSep_shape k2 _ hk2.1 hk2.2)
      have hscan : scanVal
            (v.data ++ (',' :: '\n' :: ' ' :: ' ' :: fieldRegion ((k2, v2) :: r2)))
          = some (v.data, ',' :: '\n' :: ' ' :: ' ' :: fieldRegion ((k2, v2) :: r2)) :=
        scanVal_clean v.data _ hval.1 hval.2.2 hla
      have hmf : matchField (k.data ++ ' ' :: '=' :: ' ' ::
            (v.data ++ (',' :: '\n' :: ' ' :: ' ' :: fieldRegion ((k2, v2) :: r2))))
          = some (k, v.data, ',' :: '\n' :: ' ' :: ' ' :: fieldRegion ((k2, v2) :: r2)) :=
        matchField_serialized k v.data _ hk.1 hk.2 hval.1 hval.2.1 hscan
      have hklen : 0 < k.data.length := by rw [hkc]; simp
      have hvlen : 0 < v.data.length := List.length_pos.mpr hval.1
      have hlen : (fieldRegion ((k, v) :: (k2, v2) :: r2)).length
          = k.data.length + 3 + (v.data.length
              + (4 + (fieldRegion ((k2, v2) :: r2)).length)) := by
        rw [hregion]
        simp [List.length_append]
        omega
      cases fuel with
      | zero => exact absurd hfuel (by omega)
      | succ f =>
        rw [hregion, hkc, List.cons_append, findFieldsGo, ← List.cons_append, ← hkc, hmf]
        show (k, v.data)
            :: findFieldsGo f (',' :: '\n' :: ' ' :: ' ' :: fieldRegion ((k2, v2) :: r2))
          = fieldRawPairs ((k, v) :: (k2, v2) :: r2)
        rw [findFieldsGo_skip4 f _ (by omega)]
        rw [ih (f - 4) (by omega) (fun x hx => hn x (List.mem_cons_of_mem _ hx))
          (fun x hx => hv x (List.mem_cons_of_mem _ hx))]
        rfl

theorem pyStripL_eq_self {l : List Char}
    (h1 : ∀ c, l.head? = some c → isPySpace c = false)
    (h2 : ∀ c, l.getLast? = some c → isPySpace c = false) :
    pyStripL l = l := by
  cases l with
  | nil => rfl
  | cons a tl =>
    have ha : isPySpace a = false := h1 a rfl
    unfold pyStripL
    rw [dropWhile_cons_not ha]
    cases hr : (a :: tl).reverse with
    | nil => simp at hr
    | cons b rtl =>
      have hb : (a :: tl).getLast? = some b := by
        rw [← List.head?_reverse, hr]
        rfl
      rw [dropWhile_cons_not (h2 b hb), ← hr, List.reverse_reverse]

theorem stripTrailingComma_eq_self {l : List Char}
    (h2 : ∀ c, l.getLast? = some c → isPySpace c = false ∧ c ≠ ',') :
    stripTrailingComma l = l := by
  show (if ((l.reverse.dropWhile isPySpace).head? = some ',')
      then (l.reverse.dropWhile isPySpace).tail.reverse else l) = l
  cases hr : l.reverse with
  | nil => simp
  | cons b rtl =>
    have hb : l.getLast? = some b := by
      rw [← List.head?_reverse, hr]
      rfl
    obtain ⟨hbw, hbc⟩ := h2 b hb
    rw [dropWhile_cons_not hbw]
    rw [if_neg]
    intro hcontra
    simp only [List.head?_cons, Option.some.injEq] at hcontra
    exact hbc hcontra

theorem stripTrailingComma_concat (A : List Char) : stripTrailingComma (A ++ [',']) = A := by
  show (if (((A ++ [',']).reverse.dropWhile isPySpace).head? = some ',')
      then ((A ++ [',']).reverse.dropWhile isPySpace).tail.reverse else (A ++ [','])) = A
  rw [List.reverse_append]
  rw [show (([','] : List Char).reverse ++ A.reverse) = ',' :: A.reverse from by simp]
  rw [dropWhile_cons_not (show isPySpace ',' = false from rfl)]
  rw [if_pos (show ((',' :: A.reverse : List Char)).head? = some ',' from rfl)]
  simp

theorem wrapTest_false_of_head {oP cP : Char → Bool} {w : List Char}
    (h : ∀ c, w.head? = some c → oP c = false) : wrapTest oP cP w = false := by
  cases w with
  | nil => rfl
  | cons a tl =>
    unfold wrapTest
    rw [show (a :: tl).headI = a from rfl, h a rfl]
    simp

theorem unwrapIf_head_false {oP cP : Char → Bool} {v : List Char}
    (h : ∀ c, v.head? = some c → oP c = false) : unwrapIf oP cP v = v := by
  have h2 : ∀ c, v.dropLast.head? = some c → oP c = false := by
    intro c hc
    cases v with
    | nil => simp at hc
    | cons a tl =>
      cases tl with
      | nil => simp at hc
      | cons b tl2 =>
        rw [show (a :: b :: tl2).dropLast = a :: (b :: tl2).dropLast from rfl,
          List.head?_cons] at hc
        injection hc with hc
        subst hc
        exact h a rfl
  rw [unwrapIf_eq_wrapTest, wrapTest_false_of_head h]
  have hnl : wrapTestNL oP cP v = false := by
    unfold wrapTestNL
    rw [wrapTest_false_of_head h2]
    simp
  rw [hnl]
  simp

theorem contains_false_of_not_mem {w : List Char} {x : Char} (h : ∀ c ∈ w, c ≠ x) :
    w.contains x = false := by
  induction w with
  | nil => rfl
  | cons a tl ih =>
    rw [List.contains_cons]
    rw [ih (fun c hc => h c (List.mem_cons_of_mem a hc))]
    have ha : (x == a) = false := by
      rw [beq_eq_false_iff_ne]
      exact (h a (List.mem_cons_self a tl)).symm
    rw [ha]
    rfl

theorem unwrapIf_braces_strip (w : List Char) (hnl : ∀ c ∈ w, c ≠ '\n') :
    unwrapIf (fun c => c == '{') (fun c => c == '}') ('{' :: (w ++ ['}'])) = w := by
  have hlast : ('{' :: (w ++ ['}'])).getLast? = some '}' := by
    rw [show ('{' :: (w ++ ['}'])) = ('{' :: w) ++ ['}'] from by simp]
    exact List.getLast?_concat _
  have hinner : innerOf ('{' :: (w ++ ['}'])) = w := by
    unfold innerOf
    rw [show (('{' :: (w ++ ['}'])).drop 1) = w ++ ['}'] from rfl]
    exact List.dropLast_concat
  have hw : wrapTest (fun c => c == '{') (fun c => c == '}')
      ('{' :: (w ++ ['}'])) = true := by
    unfold wrapTest
    rw [hlast, hinner, contains_false_of_not_mem hnl]
    simp [List.length_append]
  rw [unwrapIf_eq_wrapTest, hw, if_pos rfl, hinner]

theorem head?_mem {l : List Char} {c : Char} (h : l.head? = some c) : c ∈ l := by
  cases l with
  | nil => simp at h
  | cons a tl =>
    simp only [List.head?_cons, Option.some.injEq] at h
    subst h
    exact List.mem_cons_self a tl

theorem getLast?_mem {l : List Char} {c : Char} (h : l.getLast? = some c) : c ∈ l := by
  induction l with
  | nil => simp at h
  | cons a tl ih =>
    cases tl with
    | nil =>
      simp only [List.getLast?_singleton, Option.some.injEq] at h
      subst h
      exact List.mem_cons_self a []
    | cons b tl2 =>
      rw [List.getLast?_cons_cons] at h
      exact List.mem_cons_of_mem a (ih h)

theorem mem_contains_true {l : List Char} {x : Char} (h : x ∈ l) : l.contains x = true := by
  induction l with
  | nil => simp at h
  | cons a tl ih =>
    rw [List.contains_cons]
    rcases List.mem_cons.mp h with h1 | h1
    · subst h1
      simp
    · rw [ih h1]
      simp

theorem mk_eq_empty_iff (l : List Char) : String.mk l = "" ↔ l = [] := by
  constructor
  · intro h
    have := congrArg String.data h
    simpa using this
  · intro h
    subst h
    rfl

theorem str_append_data (a b : String) : (a ++ b).data = a.data ++ b.data := rfl

theorem cleanValueChar_spec {c : Char} (h : cleanValueChar c = true) :
    c ≠ ',' ∧ c ≠ '\n' ∧ (c == '{') = false ∧ (c == '}') = false
      ∧ isQuoteChar c = false ∧ (isPySpace c = true → c = ' ') := by
  unfold cleanValueChar at h
  simp only [Bool.and_eq_true, Bool.not_eq_true', Bool.or_eq_true] at h
  obtain ⟨⟨⟨⟨h1, h2⟩, h3⟩, h4⟩, h5⟩ := h
  refine ⟨?_, ?_, h1, h2, h4, ?_⟩
  · intro hc
    subst hc
    simp at h3
  · intro hc
    subst hc
    rcases h5 with h6 | h6
    · simp [isPySpace] at h6
    · simp at h6
  · intro hws
    rcases h5 with h6 | h6
    · rw [hws] at h6
      simp at h6
    · exact eq_of_beq h6

theorem cleanFieldValue_bare (v : List Char) (_h0 : v ≠ [])
    (hch : ∀ c ∈ v, isPySpace c = false ∧ c ≠ ','
      ∧ isQuoteChar c = false ∧ (c == '{') = false) :
    cleanFieldValue v = v := by
  have hs : pyStripL v = v :=
    pyStripL_eq_self (fun c hc => (hch c (head?_mem hc)).1)
      (fun c hc => (hch c (getLast?_mem hc)).1)
  have ht : stripTrailingComma v = v :=
    stripTrailingComma_eq_self (fun c hc =>
      ⟨(hch c (getLast?_mem hc)).1, (hch c (getLast?_mem hc)).2.1⟩)
  have hq : unwrapIf isQuoteChar isQuoteChar v = v :=
    unwrapIf_head_false (fun c hc => (hch c (head?_mem hc)).2.2.1)
  have hb : unwrapIf (fun c => c == '{') (fun c => c == '}') v = v :=
    unwrapIf_head_false (fun c hc => (hch c (head?_mem hc)).2.2.2)
  show unwrapIf (fun c => c == '{') (fun c => c == '}')
      (unwrapIf isQuoteChar isQuoteChar (stripTrailingComma (pyStripL (v)))) = _
  rw [hs, ht, hq, hb]

theorem cleanFieldValue_bare_comma (v : List Char) (h0 : v ≠ [])
    (hch : ∀ c ∈ v, isPySpace c = false ∧ c ≠ ','
      ∧ isQuoteChar c = false ∧ (c == '{') = false) :
    cleanFieldValue (v ++ [',']) = v := by
  obtain ⟨a, tl, rfl⟩ := List.exists_cons_of_ne_nil h0
  have hs : pyStripL ((a :: tl) ++ [',']) = (a :: tl) ++ [','] := by
    apply pyStripL_eq_self
    · intro c hc
      rw [List.cons_append, List.head?_cons] at hc
      injection hc with hc
      subst hc
      exact (hch a (List.mem_cons_self a tl)).1
    · intro c hc
      rw [List.getLast?_concat] at hc
      injection hc with hc
      subst hc
      rfl
  have ht := stripTrailingComma_concat (a :: tl)
  have hq : unwrapIf isQuoteChar isQuoteChar (a :: tl) = a :: tl :=
    unwrapIf_head_false (fun c hc => (hch c (head?_mem hc)).2.2.1)
  have hb : unwrapIf (fun c => c == '{') (fun c => c == '}') (a :: tl) = a :: tl :=
    unwrapIf_head_false (fun c hc => (hch c (head?_mem hc)).2.2.2)
  show unwrapIf (fun c => c == '{') (fun c => c == '}')
      (unwrapIf isQuoteChar isQuoteChar (stripTrailingComma (pyStripL ((a :: tl) ++ [','])))) = _
  rw [hs, ht, hq, hb]

theorem cleanFieldValue_braced (w : List Char) (hnl : ∀ c ∈ w, c ≠ '\n') :
    cleanFieldValue ('{' :: (w ++ ['}'])) = w := by
  have hs : pyStripL ('{' :: (w ++ ['}'])) = '{' :: (w ++ ['}']) := by
    apply pyStripL_eq_self
    · intro c hc
      rw [List.head?_cons] at hc
      injection hc with hc
      subst hc
      rfl
    · intro c hc
      rw [show ('{' :: (w ++ ['}'])) = ('{' :: w) ++ ['}'] from by simp,
        List.getLast?_concat] at hc
      injection hc with hc
      subst hc
      rfl
  have ht : stripTrailingComma ('{' :: (w ++ ['}'])) = '{' :: (w ++ ['}']) := by
    apply stripTrailingComma_eq_self
    intro c hc
    rw [show ('{' :: (w ++ ['}'])) = ('{' :: w) ++ ['}'] from by simp,
      List.getLast?_concat] at hc
    injection hc with hc
    subst hc
    exact ⟨rfl, by decide⟩
  have hq : unwrapIf isQuoteChar isQuoteChar ('{' :: (w ++ ['}'])) = '{' :: (w ++ ['}']) := by
    apply unwrapIf_head_false
    intro c hc
    rw [List.head?_cons] at hc
    injection hc with hc
    subst hc
    rfl
  show unwrapIf (fun c => c == '{') (fun c => c == '}')
      (unwrapIf isQuoteChar isQuoteChar (stripTrailingComma (pyStripL ('{' :: (w ++ ['}']))))) = _
  rw [hs, ht, hq, unwrapIf_braces_strip w hnl]

theorem cleanFieldValue_braced_comma (w : List Char) (hnl : ∀ c ∈ w, c ≠ '\n') :
    cleanFieldValue (('{' :: (w ++ ['}'])) ++ [',']) = w := by
  have hs : pyStripL (('{' :: (w ++ ['}'])) ++ [',']) = ('{' :: (w ++ ['}'])) ++ [','] := by
    apply pyStripL_eq_self
    · intro c hc
      rw [List.cons_append, List.head?_cons] at hc
      injection hc with hc
      subst hc
      rfl
    · intro c hc
      rw [List.getLast?_concat] at hc
      injection hc with hc
      subst hc
      rfl
  have ht := stripTrailingComma_concat ('{' :: (w ++ ['}']))
  have hq : unwrapIf isQuoteChar isQuoteChar ('{' :: (w ++ ['}'])) = '{' :: (w ++ ['}']) := by
    apply unwrapIf_head_false
    intro c hc
    rw [List.head?_cons] at hc
    injection hc with hc
    subst hc
    rfl
  show unwrapIf (fun c => c == '{') (fun c => c == '}')
      (unwrapIf isQuoteChar isQuoteChar (stripTrailingComma (pyStripL (('{' :: (w ++ ['}'])) ++ [','])))) = _
  rw [hs, ht, hq, unwrapIf_braces_strip w hnl]

theorem lookup_cons_self (a : String) (b : String) (l : List (String × String)) :
    List.lookup a ((a, b) :: l) = some b := by
  simp [List.lookup]

theorem lookup_cons_ne {a k : String} (h : a ≠ k) (b : String) (l : List (String × String)) :
    List.lookup a ((k, b) :: l) = List.lookup a l := by
  have hb : (a == k) = false := by
    rw [beq_eq_false_iff_ne]
    exact h
  simp [List.lookup, hb]

theorem lookup_mem {a b : String} {l : List (String × String)}
    (h : List.lookup a l = some b) : (a, b) ∈ l := by
  induction l with
  | nil => simp [List.lookup] at h
  | cons kv tl ih =>
    obtain ⟨k, v⟩ := kv
    by_cases hk : a = k
    · subst hk
      rw [lookup_cons_self] at h
      injection h with h
      subst h
      exact List.mem_cons_self _ tl
    · rw [lookup_cons_ne hk] at h
      exact List.mem_cons_of_mem _ (ih h)

theorem lookup_none_of_not_mem {a : String} {l : List (String × String)}
    (h : a ∉ l.map Prod.fst) : List.lookup a l = none := by
  induction l with
  | nil => rfl
  | cons kv tl ih =>
    obtain ⟨k, v⟩ := kv
    have hk : a ≠ k := by
      intro hc
      exact h (by rw [hc]; exact List.mem_cons_self k _)
    rw [lookup_cons_ne hk]
    exact ih (fun hm => h (List.mem_cons_of_mem _ hm))

theorem dictInsert_fresh {m : List (String × String)} {k : String} (v : String)
    (h : ∀ p ∈ m, p.1 ≠ k) : dictInsert m k v = m ++ [(k, v)] := by
  have hany : m.any (fun p => p.1 == k) = false := by
    rw [List.any_eq_false]
    intro p hp
    simp [h p hp]
  rw [dictInsert, hany]
  simp

theorem foldl_dictInsert_fresh (f : List Char → String) :
    ∀ (l : List (String × List Char)) (acc : List (String × String)),
    (acc.map Prod.fst ++ l.map Prod.fst).Nodup →
    l.foldl (fun m kv => dictInsert m kv.1 (f kv.2)) acc
      = acc ++ l.map (fun kv => (kv.1, f kv.2)) := by
  intro l
  induction l with
  | nil =>
    intro acc _
    simp
  | cons kv tl ih =>
    intro acc hnd
    obtain ⟨k, v⟩ := kv
    have hd : ∀ p ∈ acc, p.1 ≠ k := by
      intro p hp hc
      have hmem1 : k ∈ acc.map Prod.fst := by
        rw [← hc]
        exact List.mem_map_of_mem Prod.fst hp
      have hdisj := (List.nodup_append.mp hnd).2.2
      exact hdisj hmem1 (by simp)
    have hstep : dictInsert acc k (f v) = acc ++ [(k, f v)] := dictInsert_fresh (f v) hd
    have hnd2 : ((acc ++ [(k, f v)]).map Prod.fst ++ tl.map Prod.fst).Nodup := by
      rw [List.map_append]
      have : (acc.map Prod.fst ++ [(k, f v)].map Prod.fst) ++ tl.map Prod.fst
          = acc.map Prod.fst ++ (k, f v).1 :: tl.map Prod.fst := by
        simp
      rw [this]
      simpa using hnd
    calc ((k, v) :: tl).foldl (fun m kv => dictInsert m kv.1 (f kv.2)) acc
        = tl.foldl (fun m kv => dictInsert m kv.1 (f kv.2)) (acc ++ [(k, f v)]) := by
          rw [List.foldl_cons, hstep]
      _ = (acc ++ [(k, f v)]) ++ tl.map (fun kv => (kv.1, f kv.2)) := ih _ hnd2
      _ = acc ++ ((k, v) :: tl).map (fun kv => (kv.1, f kv.2)) := by simp

theorem fieldRawPairs_map_fst (qs : List (String × String)) :
    (fieldRawPairs qs).map Prod.fst = qs.map Prod.fst := by
  induction qs with
  | nil => rfl
  | cons q rest ih =>
    obtain ⟨k, v⟩ := q
    cases rest with
    | nil => rfl
    | cons q2 r2 =>
      show k :: (fieldRawPairs (q2 :: r2)).map Prod.fst = k :: (q2 :: r2).map Prod.fst
      rw [ih]

theorem fieldRawPairs_clean (qs : List (String × String))
    (hclean : ∀ q ∈ qs, cleanFieldValue (q.2.data ++ [',']) = cleanFieldValue q.2.data) :
    (fieldRawPairs qs).map (fun kv => (kv.1, String.mk (cleanFieldValue kv.2)))
      = qs.map (fun kv => (kv.1, String.mk (cleanFieldValue kv.2.data))) := by
  induction qs with
  | nil => rfl
  | cons q rest ih =>
    obtain ⟨k, v⟩ := q
    cases rest with
    | nil =>
      show [(k, String.mk (cleanFieldValue (v.data ++ [','])))]
        = [(k, String.mk (cleanFieldValue v.data))]
      rw [hclean (k, v) (by simp)]
    | cons q2 r2 =>
      show (k, String.mk (cleanFieldValue v.data))
          :: (fieldRawPairs (q2 :: r2)).map (fun kv => (kv.1, String.mk (cleanFieldValue kv.2)))
        = (k, String.mk (cleanFieldValue v.data))
          :: (q2 :: r2).map (fun kv => (kv.1, String.mk (cleanFieldValue kv.2.data)))
      rw [ih (fun x hx => hclean x (List.mem_cons_of_mem _ hx))]

theorem parse_fieldsL_region (qs : List (String × String))
    (hn : ∀ q ∈ qs, q.1.data ≠ [] ∧ (∀ c ∈ q.1.data, isWordChar c = true))
    (hv : ∀ q ∈ qs, q.2.data ≠ [] ∧ isPySpace (q.2.data.headI) = false
       ∧ ∀ c ∈ q.2.data, c ≠ ',' ∧ c ≠ '\n')
    (hnd : (qs.map Prod.fst).Nodup)
    (hclean : ∀ q ∈ qs, cleanFieldValue (q.2.data ++ [',']) = cleanFieldValue q.2.data) :
    parse_fieldsL (fieldRegion qs)
      = qs.map (fun kv => (kv.1, String.mk (cleanFieldValue kv.2.data))) := by
  unfold parse_fieldsL
  rw [findFieldsGo_region qs ((fieldRegion qs).length + 1) (by omega) hn hv]
  rw [foldl_dictInsert_fresh (fun v => String.mk (cleanFieldValue v)) (fieldRawPairs qs) []
    (by rw [fieldRawPairs_map_fst]; simpa using hnd)]
  rw [List.nil_append]
  exact fieldRawPairs_clean qs hclean

theorem balance_go_no_braces (l : List Char) (h : ∀ c ∈ l, ¬c = '{' ∧ ¬c = '}') :
    balance_braces_go l 0 = (l, 0) := by
  induction l with
  | nil => rfl
  | cons a tl ih =>
    have ha := h a (List.mem_cons_self a tl)
    rw [balance_go_other ha.1 ha.2 tl 0, ih (fun c hc => h c (List.mem_cons_of_mem _ hc))]

theorem balance_bracesL_no_braces {l : List Char} (h : ∀ c ∈ l, ¬c = '{' ∧ ¬c = '}') :
    balance_bracesL l = pyStripL l := by
  have hsub : ∀ c ∈ pyStripL l, ¬c = '{' ∧ ¬c = '}' :=
    fun c hc => h c ((pyStrip_within l).subset hc)
  show (balance_braces_go (pyStripL l) 0).1
      ++ List.replicate (balance_braces_go (pyStripL l) 0).2 '}' = pyStripL l
  rw [balance_go_no_braces _ hsub]
  simp

theorem collapse_fixed (l : List Char) (hsp : ∀ c ∈ l, isPySpace c = true → c = ' ')
    (hch : l.Chain' (fun a b => ¬(isPySpace a = true ∧ isPySpace b = true))) :
    collapseWsL l = l := by
  induction l with
  | nil => rfl
  | cons a tl ih =>
    cases tl with
    | nil =>
      by_cases ha : isPySpace a = true
      · have := hsp a (by simp) ha
        subst this
        rfl
      · simp [collapseWsL, Bool.of_not_eq_true ha]
    | cons d tl2 =>
      have hrel := (List.chain'_cons.mp hch).1
      have hch2 := (List.chain'_cons.mp hch).2
      have hsp2 : ∀ c ∈ d :: tl2, isPySpace c = true → c = ' ' :=
        fun c hc => hsp c (List.mem_cons_of_mem a hc)
      by_cases ha : isPySpace a = true
      · have hd : isPySpace d = false := by
          cases hdv : isPySpace d with
          | false => rfl
          | true => exact absurd ⟨ha, hdv⟩ hrel
        have haspace := hsp a (by simp) ha
        simp only [collapseWsL, ha, hd, if_true, Bool.false_eq_true, if_false]
        rw [ih hsp2 hch2, haspace]
      · simp only [collapseWsL, Bool.of_not_eq_true ha, Bool.false_eq_true, if_false]
        rw [ih hsp2 hch2]

theorem pyStripL_idem (l : List Char) : pyStripL (pyStripL l) = pyStripL l :=
  pyStripL_eq_self (pyStrip_head_not_ws l) (pyStrip_getLast_not_ws l)

theorem cleanBooktitle_eq (v : List Char) (hnb : ∀ c ∈ v, ¬c = '{' ∧ ¬c = '}')
    (hnc : ∀ c ∈ v, c ≠ ',') :
    cleanBooktitle v = pyStripL (collapseWsL (pyStripL v)) := by
  have hcont : v.contains ',' = false := contains_false_of_not_mem hnc
  have hv0 : (if v.contains ','
      then pyStripL (v.takeWhile (fun c => !(c == ','))) else v) = v := by
    have hnot : ¬(v.contains ',' = true) := by
      rw [hcont]
      simp
    rw [if_neg hnot]
  show pyStripL (collapseWsL (balance_bracesL
      (if v.contains ',' then pyStripL (v.takeWhile (fun c => !(c == ','))) else v)))
    = pyStripL (collapseWsL (pyStripL v))
  rw [hv0, balance_bracesL_no_braces hnb]

theorem cleanBooktitle_mem (v : List Char) (hnb : ∀ c ∈ v, ¬c = '{' ∧ ¬c = '}')
    (hnc : ∀ c ∈ v, c ≠ ',') :
    ∀ c ∈ cleanBooktitle v, c ∈ v ∨ c = ' ' := by
  intro c hc
  rw [cleanBooktitle_eq v hnb hnc] at hc
  have hc2 : c ∈ collapseWsL (pyStripL v) := (pyStrip_within _).subset hc
  rcases collapse_mem (pyStripL v) c hc2 with h1 | h1
  · exact Or.inl ((pyStrip_within v).subset h1)
  · exact Or.inr h1

theorem cleanBooktitle_idem (v : List Char) (hnb : ∀ c ∈ v, ¬c = '{' ∧ ¬c = '}')
    (hnc : ∀ c ∈ v, c ≠ ',') :
    cleanBooktitle (cleanBooktitle v) = cleanBooktitle v := by
  have hmem := cleanBooktitle_mem v hnb hnc
  have hnb2 : ∀ c ∈ cleanBooktitle v, ¬c = '{' ∧ ¬c = '}' := by
    intro c hc
    rcases hmem c hc with h1 | h1
    · exact hnb c h1
    · subst h1
      exact ⟨by decide, by decide⟩
  have hnc2 : ∀ c ∈ cleanBooktitle v, c ≠ ',' := by
    intro c hc
    rcases hmem c hc with h1 | h1
    · exact hnc c h1
    · subst h1
      decide
  have hw := cleanBooktitle_eq v hnb hnc
  have hstrip : pyStripL (cleanBooktitle v) = cleanBooktitle v := by
    rw [hw]
    exact pyStripL_idem _
  have hcol : collapseWsL (cleanBooktitle v) = cleanBooktitle v := by
    apply collapse_fixed
    · intro c hc hws
      rw [hw] at hc
      exact collapse_ws_is_space (pyStripL v) c ((pyStrip_within _).subset hc) hws
    · rw [hw]
      exact List.Chain'.infix (collapse_chain (pyStripL v)) (pyStrip_within _)
  rw [cleanBooktitle_eq (cleanBooktitle v) hnb2 hnc2, hstrip, hcol, hstrip]

theorem cleanBooktitle_ne_nil (v : List Char) (hnb : ∀ c ∈ v, ¬c = '{' ∧ ¬c = '}')
    (hnc : ∀ c ∈ v, c ≠ ',') (hs : pyStripL v ≠ []) :
    cleanBooktitle v ≠ [] := by
  have hq : ∀ c, isPySpace c = true → (!(isPySpace c)) = false := by
    intro c h
    simp [h]
  have hfil : (cleanBooktitle v).filter (fun c => !(isPySpace c))
      = v.filter (fun c => !(isPySpace c)) := by
    rw [cleanBooktitle_eq v hnb hnc, filter_pyStrip _ hq, collapse_filter _ hq,
      filter_pyStrip _ hq]
  obtain ⟨a, t, hcons⟩ := List.exists_cons_of_ne_nil hs
  have hans : isPySpace a = false := pyStrip_head_not_ws v a (by rw [hcons]; rfl)
  have hamem : a ∈ v := (pyStrip_within v).subset (by rw [hcons]; exact List.mem_cons_self a t)
  have hafil : a ∈ v.filter (fun c => !(isPySpace c)) :=
    List.mem_filter.mpr ⟨hamem, by simp [hans]⟩
  intro hcontra
  rw [hcontra] at hfil
  rw [← hfil] at hafil
  simp at hafil

theorem mk_data_eq (s : String) : String.mk s.data = s := rfl

theorem format_field_braced_name (key value : String)
    (h : pyLower key ∈ (["title", "booktitle", "journal", "author"] : List String)) :
    format_field key value = "\x7b" ++ formatInner key value ++ "\x7d" := by
  show (if pyLower key ∈ (["title", "booktitle", "journal", "author"] : List String)
      then "\x7b" ++ formatInner key value ++ "\x7d"
      else if needsBraces (formatInner key value).data
        then "\x7b" ++ formatInner key value ++ "\x7d"
        else formatInner key value)
    = "\x7b" ++ formatInner key value ++ "\x7d"
  rw [if_pos h]

theorem formatInner_not_booktitle {key : String} (value : String)
    (h : ¬pyLower key = "booktitle") : formatInner key value = value := by
  unfold formatInner
  rw [if_neg h]

theorem not_booktitle_of_not_name {key : String}
    (h : pyLower key ∉ (["title", "booktitle", "journal", "author"] : List String)) :
    ¬pyLower key = "booktitle" := by
  intro hc
  apply h
  rw [hc]
  simp

theorem format_field_braced_needs (key value : String)
    (h : pyLower key ∉ (["title", "booktitle", "journal", "author"] : List String))
    (hnb : needsBraces value.data = true) :
    format_field key value = "\x7b" ++ value ++ "\x7d" := by
  have hbk := not_booktitle_of_not_name h
  have hfi := formatInner_not_booktitle value hbk
  show (if pyLower key ∈ (["title", "booktitle", "journal", "author"] : List String)
      then "\x7b" ++ formatInner key value ++ "\x7d"
      else if needsBraces (formatInner key value).data
        then "\x7b" ++ formatInner key value ++ "\x7d"
        else formatInner key value)
    = "\x7b" ++ value ++ "\x7d"
  rw [if_neg h, hfi, hnb]
  simp

theorem format_field_bare (key value : String)
    (h : pyLower key ∉ (["title", "booktitle", "journal", "author"] : List String))
    (hnb : needsBraces value.data = false) :
    format_field key value = value := by
  have hbk := not_booktitle_of_not_name h
  have hfi := formatInner_not_booktitle value hbk
  show (if pyLower key ∈ (["title", "booktitle", "journal", "author"] : List String)
      then "\x7b" ++ formatInner key value ++ "\x7d"
      else if needsBraces (formatInner key value).data
        then "\x7b" ++ formatInner key value ++ "\x7d"
        else formatInner key value)
    = value
  rw [if_neg h, hfi, hnb]
  simp

theorem brace_wrap_data (s : String) :
    ("\x7b" ++ s ++ "\x7d").data = '{' :: (s.data ++ ['}']) := by
  rw [str_append_data, str_append_data]
  simp

theorem sp_props_braced (key v : String)
    (hff : format_field key v = "\x7b" ++ formatInner key v ++ "\x7d")
    (hinner : ∀ c ∈ (formatInner key v).data, c ≠ ',' ∧ c ≠ '\n') :
    (format_field key v).data ≠ []
    ∧ isPySpace ((format_field key v).data.headI) = false
    ∧ (∀ c ∈ (format_field key v).data, c ≠ ',' ∧ c ≠ '\n')
    ∧ cleanFieldValue ((format_field key v).data) = (formatInner key v).data
    ∧ cleanFieldValue ((format_field key v).data ++ [',']) = (formatInner key v).data := by
  have hdata : (format_field key v).data = '{' :: ((formatInner key v).data ++ ['}']) := by
    rw [hff, brace_wrap_data]
  have hnl : ∀ c ∈ (formatInner key v).data, c ≠ '\n' := fun c hc => (hinner c hc).2
  refine ⟨?_, ?_, ?_, ?_, ?_⟩
  · rw [hdata]
    simp
  · rw [hdata]
    rfl
  · intro c hc
    rw [hdata] at hc
    rcases List.mem_cons.mp hc with h1 | h1
    · subst h1
      exact ⟨by decide, by decide⟩
    · rcases List.mem_append.mp h1 with h2 | h2
      · exact hinner c h2
      · simp only [List.mem_singleton] at h2
        subst h2
        exact ⟨by decide, by decide⟩
  · rw [hdata]
    exact cleanFieldValue_braced _ hnl
  · rw [hdata, ← List.cons_append]
    exact cleanFieldValue_braced_comma _ hnl

theorem sp_pair_props (key v : String)
    (hcv : ∀ c ∈ v.data, cleanValueChar c = true)
    (hps : v ≠ "" → pyStrip v ≠ "")
    (hne : v ≠ "") :
    (format_field key v).data ≠ []
    ∧ isPySpace ((format_field key v).data.headI) = false
    ∧ (∀ c ∈ (format_field key v).data, c ≠ ',' ∧ c ≠ '\n')
    ∧ cleanFieldValue ((format_field key v).data) = (formatInner key v).data
    ∧ cleanFieldValue ((format_field key v).data ++ [',']) = (formatInner key v).data
    ∧ formatInner key v ≠ ""
    ∧ field_line key (formatInner key v) = field_line key v := by
  have hvdata : v.data ≠ [] := by
    intro hd
    exact hne (by rw [← mk_data_eq v, hd])
  have hfacts := fun c hc => cleanValueChar_spec (hcv c hc)
  by_cases hname : pyLower key ∈ (["title", "booktitle", "journal", "author"] : List String)
  · by_cases hbk : pyLower key = "booktitle"
    · -- the booktitle rule: the printed value is the cleaned one
      have hfi : formatInner key v = String.mk (cleanBooktitle v.data) := by
        unfold formatInner
        rw [if_pos hbk]
      have hnb : ∀ c ∈ v.data, ¬c = '{' ∧ ¬c = '}' := fun c hc =>
        ⟨beq_eq_false_iff_ne.mp (hfacts c hc).2.2.1,
         beq_eq_false_iff_ne.mp (hfacts c hc).2.2.2.1⟩
      have hnc : ∀ c ∈ v.data, c ≠ ',' := fun c hc => (hfacts c hc).1
      have hWm := cleanBooktitle_mem v.data hnb hnc
      have hinner : ∀ c ∈ (formatInner key v).data, c ≠ ',' ∧ c ≠ '\n' := by
        intro c hc
        rw [hfi] at hc
        rcases hWm c hc with h1 | h1
        · exact ⟨(hfacts c h1).1, (hfacts c h1).2.1⟩
        · subst h1
          exact ⟨by decide, by decide⟩
      have hbr := sp_props_braced key v (format_field_braced_name key v hname) hinner
      have hWne : cleanBooktitle v.data ≠ [] := by
        apply cleanBooktitle_ne_nil v.data hnb hnc
        intro hsn
        exact hps hne (by rw [show pyStrip v = String.mk (pyStripL v.data) from rfl, hsn])
      refine ⟨hbr.1, hbr.2.1, hbr.2.2.1, hbr.2.2.2.1, hbr.2.2.2.2, ?_, ?_⟩
      · rw [hfi]
        intro hc
        exact hWne ((mk_eq_empty_iff _).mp hc)
      · have hnb2 : ∀ c ∈ cleanBooktitle v.data, ¬c = '{' ∧ ¬c = '}' := by
          intro c hc
          rcases hWm c hc with h1 | h1
          · exact hnb c h1
          · subst h1
            exact ⟨by decide, by decide⟩
        have hnc2 : ∀ c ∈ cleanBooktitle v.data, c ≠ ',' := by
          intro c hc
          rcases hWm c hc with h1 | h1
          · exact hnc c h1
          · subst h1
            decide
        have hfi2 : formatInner key (formatInner key v) = formatInner key v := by
          rw [hfi]
          unfold formatInner
          rw [if_pos hbk]
          rw [show (String.mk (cleanBooktitle v.data)).data = cleanBooktitle v.data from rfl]
          rw [cleanBooktitle_idem v.data hnb hnc]
        have hsecond : format_field key (formatInner key v) = format_field key v := by
          rw [format_field_braced_name key (formatInner key v) hname,
            format_field_braced_name key v hname, hfi2]
        unfold field_line
        rw [hsecond]
    · -- a name field other than booktitle: the value is printed unchanged
      have hfi := formatInner_not_booktitle v hbk
      have hinner : ∀ c ∈ (formatInner key v).data, c ≠ ',' ∧ c ≠ '\n' := by
        rw [hfi]
        exact fun c hc => ⟨(hfacts c hc).1, (hfacts c hc).2.1⟩
      have hbr := sp_props_braced key v (format_field_braced_name key v hname) hinner
      refine ⟨hbr.1, hbr.2.1, hbr.2.2.1, hbr.2.2.2.1, hbr.2.2.2.2, ?_, ?_⟩
      · rw [hfi]
        exact hne
      · rw [hfi]
  · by_cases hwrap : needsBraces v.data = true
    · -- a non-name field whose value needs braces
      have hfi := formatInner_not_booktitle v (not_booktitle_of_not_name hname)
      have hff : format_field key v = "\x7b" ++ formatInner key v ++ "\x7d" := by
        rw [hfi]
        exact format_field_braced_needs key v hname hwrap
      have hinner : ∀ c ∈ (formatInner key v).data, c ≠ ',' ∧ c ≠ '\n' := by
        rw [hfi]
        exact fun c hc => ⟨(hfacts c hc).1, (hfacts c hc).2.1⟩
      have hbr := sp_props_braced key v hff hinner
      refine ⟨hbr.1, hbr.2.1, hbr.2.2.1, hbr.2.2.2.1, hbr.2.2.2.2, ?_, ?_⟩
      · rw [hfi]
        exact hne
      · rw [hfi]
    · -- a bare value: no whitespace at all survives in it
      have hwrapf : needsBraces v.data = false := Bool.of_not_eq_true hwrap
      have hfi := formatInner_not_booktitle v (not_booktitle_of_not_name hname)
      have hff : format_field key v = v := format_field_bare key v hname hwrapf
      have hnospace : ∀ c ∈ v.data, c ≠ ' ' := by
        intro c hc hsp
        have hcont : v.data.contains ' ' = false := by
          unfold needsBraces at hwrapf
          simp only [Bool.or_eq_false_iff] at hwrapf
          exact hwrapf.1.1.1.1
        subst hsp
        rw [mem_contains_true hc] at hcont
        exact absurd hcont (by simp)
      have hch : ∀ c ∈ v.data, isPySpace c = false ∧ c ≠ ','
          ∧ isQuoteChar c = false ∧ (c == '{') = false := by
        intro c hc
        refine ⟨?_, (hfacts c hc).1, (hfacts c hc).2.2.2.2.1, (hfacts c hc).2.2.1⟩
        cases hws : isPySpace c with
        | false => rfl
        | true => exact absurd ((hfacts c hc).2.2.2.2.2 hws) (hnospace c hc)
      obtain ⟨a, tl, hcons⟩ := List.exists_cons_of_ne_nil hvdata
      refine ⟨?_, ?_, ?_, ?_, ?_, ?_, ?_⟩
      · rw [hff]
        exact hvdata
      · rw [hff, hcons]
        exact (hch a (by rw [hcons]; exact List.mem_cons_self a tl)).1
      · rw [hff]
        exact fun c hc => ⟨(hfacts c hc).1, (hfacts c hc).2.1⟩
      · rw [hff, hfi]
        exact cleanFieldValue_bare v.data hvdata hch
      · rw [hff, hfi]
        exact cleanFieldValue_bare_comma v.data hvdata hch
      · rw [hfi]
        exact hne
      · rw [hfi]

theorem filterMap_ext {α β : Type} (f g : α → Option β) (h : ∀ a, f a = g a)
    (l : List α) : l.filterMap f = l.filterMap g := by
  rw [show f = g from funext h]

theorem filterMap_congr_mem {α β : Type} {f g : α → Option β} :
    ∀ {l : List α}, (∀ a ∈ l, f a = g a) → l.filterMap f = l.filterMap g := by
  intro l
  induction l with
  | nil => intro _; rfl
  | cons a tl ih =>
    intro h
    rw [List.filterMap_cons, List.filterMap_cons, h a (by simp),
      ih (fun x hx => h x (List.mem_cons_of_mem a hx))]

theorem to_bibtex_lines_pairs (e : BibtexEntry) :
    e.to_bibtex_lines
      = ("@" ++ e.entry_type ++ "\x7b" ++ e.cite_key ++ ",")
        :: (emittedPairs e.fields).map (fun kv => field_line kv.1 kv.2) ++ ["\x7d"] := by
  unfold BibtexEntry.to_bibtex_lines emittedPairs
  congr 1
  congr 1
  rw [List.map_filterMap]
  apply filterMap_ext
  intro key
  cases hll : List.lookup key e.fields with
  | none => simp
  | some v =>
    by_cases hv : v = ""
    · simp [hv]
    · simp [hv]

theorem filterMap_keyed_sublist {β : Type} (f : String → Option (String × β))
    (hf : ∀ k kv, f k = some kv → kv.1 = k) :
    ∀ keys : List String, List.Sublist ((keys.filterMap f).map Prod.fst) keys := by
  intro keys
  induction keys with
  | nil => simp
  | cons k0 rest ih =>
    rw [List.filterMap_cons]
    cases hl : f k0 with
    | none => exact ih.cons k0
    | some kv =>
      rw [List.map_cons, hf k0 kv hl]
      exact ih.cons₂ k0

theorem emittedPairs_keys_sublist (fields : List (String × String)) :
    List.Sublist ((emittedPairs fields).map Prod.fst) essential_fields := by
  unfold emittedPairs
  apply filterMap_keyed_sublist
  intro k kv h
  cases hll : List.lookup k fields with
  | none =>
    rw [hll] at h
    simp at h
  | some v =>
    rw [hll] at h
    by_cases hv : v = ""
    · simp [hv] at h
    · have h2 : (if v ≠ "" then some (k, v) else none) = some kv := h
      rw [if_pos hv] at h2
      injection h2 with h2
      rw [← h2]

theorem emittedPairs_mem {fields : List (String × String)} {kv : String × String}
    (h : kv ∈ emittedPairs fields) : kv ∈ fields ∧ kv.1 ∈ essential_fields ∧ kv.2 ≠ "" := by
  unfold emittedPairs at h
  obtain ⟨key, hkey, hf⟩ := List.mem_filterMap.mp h
  cases hll : List.lookup key fields with
  | none =>
    rw [hll] at hf
    simp at hf
  | some v =>
    rw [hll] at hf
    by_cases hv : v = ""
    · simp [hv] at hf
    · have hf2 : (if v ≠ "" then some (key, v) else none) = some kv := hf
      rw [if_pos hv] at hf2
      injection hf2 with hf2
      subst hf2
      exact ⟨lookup_mem hll, hkey, hv⟩

theorem filterMap_lookup_sublist :
    ∀ (keys : List String) (P : List (String × String)),
    List.Sublist (P.map Prod.fst) keys → keys.Nodup → (∀ kv ∈ P, kv.2 ≠ "") →
    keys.filterMap (fun key =>
        match List.lookup key P with
        | some v => if v ≠ "" then some (key, v) else none
        | none => none) = P := by
  intro keys
  induction keys with
  | nil =>
    intro P hsub _ _
    have h0 : P.map Prod.fst = [] := List.sublist_nil.mp hsub
    have hP : P = [] := by
      cases P with
      | nil => rfl
      | cons a b => simp at h0
    rw [hP]
    rfl
  | cons k0 rest ih =>
    intro P hsub hnd hval
    rw [List.filterMap_cons]
    cases P with
    | nil =>
      exact ih [] (by simp) (List.Nodup.of_cons hnd) (by simp)
    | cons p P2 =>
      obtain ⟨k1, v1⟩ := p
      simp only [List.map_cons] at hsub
      cases hsub with
      | cons₂ _ hsub2 =>
        have hv1 : v1 ≠ "" := hval (k0, v1) (by simp)
        have hfk2 : (match List.lookup k0 ((k0, v1) :: P2) with
            | some v => if v ≠ "" then some (k0, v) else none
            | none => none) = some (k0, v1) := by
          rw [lookup_cons_self]
          show (if v1 ≠ "" then some (k0, v1) else none : Option (String × String))
            = some (k0, v1)
          rw [if_pos hv1]
        rw [hfk2]
        show (k0, v1) :: List.filterMap (fun key =>
            match List.lookup key ((k0, v1) :: P2) with
            | some v => if v ≠ "" then some (key, v) else none
            | none => none) rest
          = (k0, v1) :: P2
        congr 1
        have hk0 : k0 ∉ rest := (List.nodup_cons.mp hnd).1
        have hstep : ∀ key ∈ rest,
            (match List.lookup key ((k0, v1) :: P2) with
              | some v => if v ≠ "" then some (key, v) else none
              | none => none)
            = (match List.lookup key P2 with
              | some v => if v ≠ "" then some (key, v) else none
              | none => none) := by
          intro key hk
          have hne : key ≠ k0 := fun hc => hk0 (hc ▸ hk)
          rw [lookup_cons_ne hne]
        rw [filterMap_congr_mem hstep]
        exact ih P2 hsub2 (List.Nodup.of_cons hnd)
          (fun kv hkv => hval kv (List.mem_cons_of_mem _ hkv))
      | cons a hsub2 =>
        have hk0 : k0 ∉ ((k1, v1) :: P2).map Prod.fst := by
          intro hmem
          have hmem2 : k0 ∈ rest := hsub2.subset (by simpa using hmem)
          exact (List.nodup_cons.mp hnd).1 hmem2
        have hfk2 : (match List.lookup k0 ((k1, v1) :: P2) with
            | some v => if v ≠ "" then some (k0, v) else none
            | none => none) = none := by
          rw [lookup_none_of_not_mem hk0]
        rw [hfk2]
        exact ih ((k1, v1) :: P2) hsub2 (List.Nodup.of_cons hnd) hval

theorem emittedPairs_self (P : List (String × String))
    (hsub : List.Sublist (P.map Prod.fst) essential_fields)
    (hval : ∀ kv ∈ P, kv.2 ≠ "") :
    emittedPairs P = P :=
  filterMap_lookup_sublist essential_fields P hsub (by decide) hval

theorem emittedPairs_keys_nodup (fields : List (String × String)) :
    ((emittedPairs fields).map Prod.fst).Nodup :=
  List.Nodup.sublist (emittedPairs_keys_sublist fields) (by decide)

theorem essential_fields_word :
    ∀ s ∈ essential_fields, s.data ≠ [] ∧ ∀ c ∈ s.data, isWordChar c = true := by decide

theorem field_lines_eq (fields : List (String × String)) :
    (emittedPairs fields).map (fun kv => field_line kv.1 kv.2)
      = (serializedPairs fields).map (fun kv => "  " ++ kv.1 ++ " = " ++ kv.2 ++ ",") := by
  unfold serializedPairs
  rw [List.map_map]
  rfl

theorem joinRaw (qs : List (String × String)) :
    (joinLines ((qs.map (fun kv => "  " ++ kv.1 ++ " = " ++ kv.2 ++ ",")) ++ ["\x7d"])).data
      = if qs = [] then ['}'] else ' ' :: ' ' :: (fieldRegion qs ++ ['\n', '}']) := by
  induction qs with
  | nil => rfl
  | cons q rest ih =>
    obtain ⟨k, v⟩ := q
    rw [List.map_cons, List.cons_append, joinLines_cons_data _ _ (by simp)]
    rw [if_neg (by simp : ¬((k, v) :: rest = []))]
    cases rest with
    | nil =>
      show (("  " ++ k ++ " = " ++ v ++ ",").data ++ '\n' :: ("\x7d" : String).data)
        = ' ' :: ' ' :: (fieldRegion [(k, v)] ++ ['\n', '}'])
      rw [show fieldRegion [(k, v)]
          = k.data ++ ' ' :: '=' :: ' ' :: (v.data ++ [',']) from rfl]
      simp [str_append_data, List.append_assoc]
    | cons q2 r2 =>
      have hih : (joinLines (((q2 :: r2).map
            (fun kv => "  " ++ kv.1 ++ " = " ++ kv.2 ++ ",")) ++ ["\x7d"])).data
          = ' ' :: ' ' :: (fieldRegion (q2 :: r2) ++ ['\n', '}']) := by
        rw [ih, if_neg (by simp : ¬(q2 :: r2 = []))]
      rw [hih]
      rw [fieldRegion_cons_eq k v (q2 :: r2), if_neg (by simp : ¬(q2 :: r2 = []))]
      simp [str_append_data, List.append_assoc]

theorem to_bibtex_data (e : BibtexEntry) :
    e.to_bibtex.data
      = '@' :: (e.entry_type.data ++ '{' :: (e.cite_key.data ++ ',' ::
          (if serializedPairs e.fields = [] then ['\n', '}']
           else '\n' :: ' ' :: ' ' :: (fieldRegion (serializedPairs e.fields)
             ++ ['\n', '}'])))) := by
  unfold BibtexEntry.to_bibtex
  rw [to_bibtex_lines_pairs, field_lines_eq, List.cons_append,
    joinLines_cons_data _ _ (by simp), joinRaw]
  by_cases hsp : serializedPairs e.fields = []
  · simp [hsp, str_append_data, List.append_assoc]
  · simp [hsp, str_append_data, List.append_assoc]

theorem findEntriesGo_nil (fuel : Nat) : findEntriesGo fuel [] = [] := by
  cases fuel <;> rfl

theorem parse_content_serialized (t k : String) (body G : List Char)
    (ht1 : t.data ≠ []) (ht2 : ∀ c ∈ t.data, isWordChar c = true)
    (hk1 : k.data ≠ []) (hk2 : ∀ c ∈ k.data, isKeyChar c = true)
    (hm : matchTail body = some (G, [])) :
    BibtexParser.parse_content (String.mk ('@' :: (t.data ++ '{' :: (k.data ++ ',' :: body))))
      = [BibtexEntry.make t k (parse_fieldsL G)] := by
  have hme := matchEntry_serialized t k body G [] ht1 ht2 hk1 hk2 hm
  unfold BibtexParser.parse_content
  rw [show (String.mk ('@' :: (t.data ++ '{' :: (k.data ++ ',' :: body)))).data
      = '@' :: (t.data ++ '{' :: (k.data ++ ',' :: body)) from rfl]
  rw [List.length_cons, findEntriesGo, hme]
  show List.map (fun x => BibtexEntry.make x.1 x.2.1 (parse_fieldsL x.2.2))
      ((t, k, G) :: findEntriesGo ((t.data ++ '{' :: (k.data ++ ',' :: body)).length + 1) [])
    = [BibtexEntry.make t k (parse_fieldsL G)]
  rw [findEntriesGo_nil]
  rfl

/-- C4 counterexample: the round trip is not the identity for every record
whose field map contains only allow-listed names.  On the record
`@article` / key `k` / `pages = '7'` the serialized line `pages = '7',` is
reparsed with its quote pair stripped, so the second serialization emits
`pages = 7,` and differs from the first. -/
theorem serialize_reparse_value_rewritten :
    ∃ e : BibtexEntry,
      (∀ kv ∈ e.fields, kv.1 ∈ essential_fields)
      ∧ (BibtexParser.parse_content e.to_bibtex).map BibtexEntry.to_bibtex
          ≠ [e.to_bibtex] := by
  refine ⟨⟨"article", "k", [("pages", "\x277\x27")]⟩, by decide, by decide⟩

/-- C4 (amended): for every record whose entry type is non-empty, lowercase
and word-only, whose cite key is non-empty with neither whitespace nor a
comma, and whose field map carries only allow-listed names with clean values
(no braces, quotes, commas, or whitespace other than plain spaces, and not
whitespace-only when non-empty), serializing the record, parsing the
serialized text back, and serializing the parsed record again yields exactly
the first serialization.  Without the value-cleanliness hypotheses the
original claim (allow-listed names alone suffice) is false. -/
theorem serialize_reparse_roundtrip (t k : String) (fields : List (String × String))
    (ht : goodKind t) (hk : goodKey k) (hf : ∀ kv ∈ fields, goodField kv) :
    (BibtexParser.parse_content (BibtexEntry.make t k fields).to_bibtex).map
        BibtexEntry.to_bibtex
      = [(BibtexEntry.make t k fields).to_bibtex] := by
  obtain ⟨ht0, ht1, ht2⟩ := ht
  obtain ⟨hk0, hk2⟩ := hk
  have hmk : BibtexEntry.make t k fields = ⟨t, k, fields⟩ := by
    unfold BibtexEntry.make
    rw [ht1]
  have htd : t.data ≠ [] := by
    intro hd
    exact ht0 (by rw [← mk_data_eq t, hd])
  have hkd : k.data ≠ [] := by
    intro hd
    exact hk0 (by rw [← mk_data_eq k, hd])
  have hEPgood : ∀ kv ∈ emittedPairs fields, goodField kv ∧ kv.2 ≠ "" := by
    intro kv hkv
    obtain ⟨hin, _, hne⟩ := emittedPairs_mem hkv
    exact ⟨hf kv hin, hne⟩
  have hprops := fun kv (hkv : kv ∈ emittedPairs fields) =>
    sp_pair_props kv.1 kv.2 (hEPgood kv hkv).1.2.1 (hEPgood kv hkv).1.2.2 (hEPgood kv hkv).2
  have hSPm : ∀ q ∈ serializedPairs fields,
      ∃ kv, kv ∈ emittedPairs fields ∧ q = (kv.1, format_field kv.1 kv.2) := by
    intro q hq
    obtain ⟨kv, hkv, hq2⟩ := List.mem_map.mp hq
    exact ⟨kv, hkv, hq2.symm⟩
  have hnames : ∀ q ∈ serializedPairs fields,
      q.1.data ≠ [] ∧ (∀ c ∈ q.1.data, isWordChar c = true) := by
    intro q hq
    obtain ⟨kv, hkv, hqe⟩ := hSPm q hq
    rw [hqe]
    exact essential_fields_word kv.1 (emittedPairs_mem hkv).2.1
  have hvals : ∀ q ∈ serializedPairs fields, q.2.data ≠ []
      ∧ isPySpace (q.2.data.headI) = false
      ∧ ∀ c ∈ q.2.data, c ≠ ',' ∧ c ≠ '\n' := by
    intro q hq
    obtain ⟨kv, hkv, hqe⟩ := hSPm q hq
    rw [hqe]
    have hp := hprops kv hkv
    exact ⟨hp.1, hp.2.1, hp.2.2.1⟩
  have hvalsnl : ∀ q ∈ serializedPairs fields, ∀ c ∈ q.2.data, c ≠ '\n' :=
    fun q hq c hc => ((hvals q hq).2.2 c hc).2
  have hclean : ∀ q ∈ serializedPairs fields,
      cleanFieldValue (q.2.data ++ [',']) = cleanFieldValue q.2.data := by
    intro q hq
    obtain ⟨kv, hkv, hqe⟩ := hSPm q hq
    rw [hqe]
    have hp := hprops kv hkv
    show cleanFieldValue ((format_field kv.1 kv.2).data ++ [','])
      = cleanFieldValue (format_field kv.1 kv.2).data
    rw [hp.2.2.2.2.1, hp.2.2.2.1]
  have hSPfst : (serializedPairs fields).map Prod.fst
      = (emittedPairs fields).map Prod.fst := by
    unfold serializedPairs
    rw [List.map_map]
    rfl
  have hnodup : ((serializedPairs fields).map Prod.fst).Nodup := by
    rw [hSPfst]
    exact emittedPairs_keys_nodup fields
  have hPF : (serializedPairs fields).map
        (fun kv => (kv.1, String.mk (cleanFieldValue kv.2.data)))
      = (emittedPairs fields).map (fun kv => (kv.1, formatInner kv.1 kv.2)) := by
    unfold serializedPairs
    rw [List.map_map]
    apply List.map_congr_left
    intro kv hkv
    have hp := hprops kv hkv
    show (kv.1, String.mk (cleanFieldValue (format_field kv.1 kv.2).data))
      = (kv.1, formatInner kv.1 kv.2)
    rw [hp.2.2.2.1, mk_data_eq]
  have hsecond : (BibtexEntry.mk t k ((emittedPairs fields).map
        (fun kv => (kv.1, formatInner kv.1 kv.2)))).to_bibtex
      = (BibtexEntry.mk t k fields).to_bibtex := by
    unfold BibtexEntry.to_bibtex
    rw [to_bibtex_lines_pairs, to_bibtex_lines_pairs]
    have hself : emittedPairs ((emittedPairs fields).map
          (fun kv => (kv.1, formatInner kv.1 kv.2)))
        = (emittedPairs fields).map (fun kv => (kv.1, formatInner kv.1 kv.2)) := by
      apply emittedPairs_self
      · have hfst : (((emittedPairs fields).map
            (fun kv => (kv.1, formatInner kv.1 kv.2))).map Prod.fst)
            = (emittedPairs fields).map Prod.fst := by
          rw [List.map_map]
          rfl
        rw [hfst]
        exact emittedPairs_keys_sublist fields
      · intro kv hkv
        obtain ⟨kv0, hkv0, hkv0e⟩ := List.mem_map.mp hkv
        rw [← hkv0e]
        exact (hprops kv0 hkv0).2.2.2.2.2.1
    rw [hself]
    have hlines : (((emittedPairs fields).map
          (fun kv => (kv.1, formatInner kv.1 kv.2))).map
            (fun kv => field_line kv.1 kv.2))
        = (emittedPairs fields).map (fun kv => field_line kv.1 kv.2) := by
      rw [List.map_map]
      apply List.map_congr_left
      intro kv hkv
      exact (hprops kv hkv).2.2.2.2.2.2
    rw [hlines]
  by_cases hsp0 : serializedPairs fields = []
  · have hdata : (BibtexEntry.mk t k fields).to_bibtex.data
        = '@' :: (t.data ++ '{' :: (k.data ++ ',' :: ['\n', '}'])) := by
      rw [to_bibtex_data]
      rw [if_pos hsp0]
    have hstr : (BibtexEntry.mk t k fields).to_bibtex
        = String.mk ('@' :: (t.data ++ '{' :: (k.data ++ ',' :: ['\n', '}']))) := by
      have h2 := congrArg String.mk hdata
      rwa [mk_data_eq] at h2
    have hEPnil : emittedPairs fields = [] := by
      have h3 := hsp0
      unfold serializedPairs at h3
      exact List.map_eq_nil_iff.mp h3
    rw [hmk, hstr,
      parse_content_serialized t k ['\n', '}'] [] htd ht2 hkd hk2 matchTail_empty_region]
    rw [show parse_fieldsL ([] : List Char) = [] from rfl]
    have hmk2 : BibtexEntry.make t k [] = ⟨t, k, []⟩ := by
      unfold BibtexEntry.make
      rw [ht1]
    rw [List.map_singleton, hmk2]
    have hnil2 : ((emittedPairs fields).map (fun kv => (kv.1, formatInner kv.1 kv.2)))
        = ([] : List (String × String)) := by
      rw [hEPnil]
      rfl
    rw [← hnil2, hsecond, hstr]
  · have hscan := scanNL_fieldRegion (serializedPairs fields) hnames hvalsnl hsp0
    have hx : ∃ c Z, fieldRegion (serializedPairs fields) = c :: Z
        ∧ isPySpace c = false := by
      obtain ⟨q, SP2, hq⟩ := List.exists_cons_of_ne_nil hsp0
      obtain ⟨k1, v1⟩ := q
      have hn1 := hnames (k1, v1) (by rw [hq]; exact List.mem_cons_self _ _)
      obtain ⟨c1, t1, hc1⟩ := List.exists_cons_of_ne_nil hn1.1
      refine ⟨c1, t1 ++ ' ' :: '=' :: ' ' :: (v1.data
        ++ (if SP2 = [] then [','] else ',' :: '\n' :: ' ' :: ' ' :: fieldRegion SP2)),
        ?_, ?_⟩
      · rw [hq, fieldRegion_cons_eq, hc1]
        rfl
      · exact word_not_ws (hn1.2 c1 (by rw [hc1]; exact List.mem_cons_self _ _))
    have hmT : matchTail ('\n' :: ' ' :: ' ' ::
          (fieldRegion (serializedPairs fields) ++ ['\n', '}']))
        = some (fieldRegion (serializedPairs fields), []) := by
      refine matchTail_three_ws _ ?_ hscan
      obtain ⟨c, Z, hfr, hcs⟩ := hx
      exact ⟨c, Z ++ ['\n', '}'], by rw [hfr]; rfl, hcs⟩
    have hdata : (BibtexEntry.mk t k fields).to_bibtex.data
        = '@' :: (t.data ++ '{' :: (k.data ++ ',' ::
            ('\n' :: ' ' :: ' ' :: (fieldRegion (serializedPairs fields)
              ++ ['\n', '}'])))) := by
      rw [to_bibtex_data]
      rw [if_neg hsp0]
    have hstr : (BibtexEntry.mk t k fields).to_bibtex
        = String.mk ('@' :: (t.data ++ '{' :: (k.data ++ ',' ::
            ('\n' :: ' ' :: ' ' :: (fieldRegion (serializedPairs fields)
              ++ ['\n', '}']))))) := by
      have h2 := congrArg String.mk hdata
      rwa [mk_data_eq] at h2
    rw [hmk, hstr, parse_content_serialized t k _ _ htd ht2 hkd hk2 hmT]
    rw [parse_fieldsL_region (serializedPairs fields) hnames hvals hnodup hclean]
    rw [hPF]
    have hmk3 : BibtexEntry.make t k ((emittedPairs fields).map
          (fun kv => (kv.1, formatInner kv.1 kv.2)))
        = ⟨t, k, (emittedPairs fields).map (fun kv => (kv.1, formatInner kv.1 kv.2))⟩ := by
      unfold BibtexEntry.make
      rw [ht1]
    rw [List.map_singleton, hmk3, hsecond, hstr]

theorem serialize_reparse_roundtrip_witness :
    (goodKind "article" ∧ goodKey "ab"
      ∧ (∀ kv ∈ ([("title", "Deep Learning"), ("year", "2020")] : List (String × String)),
          goodField kv))
    ∧ (BibtexParser.parse_content
          (BibtexEntry.make "article" "ab"
            [("title", "Deep Learning"), ("year", "2020")]).to_bibtex).map
        BibtexEntry.to_bibtex
      = [(BibtexEntry.make "article" "ab"
            [("title", "Deep Learning"), ("year", "2020")]).to_bibtex] :=
  ⟨⟨by unfold goodKind; decide, by unfold goodKey; decide,
      by simp only [goodField]; decide⟩,
    serialize_reparse_roundtrip "article" "ab"
      [("title", "Deep Learning"), ("year", "2020")]
      (by unfold goodKind; decide) (by unfold goodKey; decide)
      (by simp only [goodField]; decide)⟩

theorem intercalate_nil_runs : List.intercalate [' '] ([] : List (List Char)) = [] := by
  simp [List.intercalate]

theorem intercalate_single (x : List Char) : List.intercalate [' '] [x] = x := by
  simp [List.intercalate]

theorem intercalate_cons2 (x y : List Char) (ys : List (List Char)) :
    List.intercalate [' '] (x :: y :: ys)
      = x ++ ' ' :: List.intercalate [' '] (y :: ys) := by
  rfl

theorem collapse_word_run (R S : List Char) (hR : ∀ c ∈ R, isPySpace c = false) :
    collapseWsL (R ++ S) = R ++ collapseWsL S := by
  induction R with
  | nil => rfl
  | cons r R2 ih =>
    rw [List.cons_append, collapse_cons_not_ws (hR r (by simp)),
      ih (fun c hc => hR c (by simp [hc]))]
    rfl

theorem collapse_ws_head : ∀ S : List Char, isPySpace S.headI = true → S ≠ [] →
    collapseWsL S = ' ' :: collapseWsL (S.dropWhile isPySpace) := by
  intro S
  induction S with
  | nil =>
    intro _ h
    exact absurd rfl h
  | cons w tl ih =>
    intro hw _
    have hw2 : isPySpace w = true := hw
    cases tl with
    | nil =>
      rw [show collapseWsL [w] = [' '] from by simp [collapseWsL, hw2]]
      rw [List.dropWhile_cons, if_pos hw2]
      rfl
    | cons d tl2 =>
      by_cases hd : isPySpace d = true
      · rw [show collapseWsL (w :: d :: tl2) = collapseWsL (d :: tl2) from by
          simp [collapseWsL, hw2, hd]]
        rw [ih hd (by simp)]
        conv_rhs => rw [List.dropWhile_cons, if_pos hw2]
      · rw [show collapseWsL (w :: d :: tl2) = ' ' :: collapseWsL (d :: tl2) from by
          simp [collapseWsL, hw2, Bool.of_not_eq_true hd]]
        rw [List.dropWhile_cons, if_pos hw2, List.dropWhile_cons,
          if_neg (by simp [Bool.of_not_eq_true hd] : ¬(isPySpace d = true))]

theorem dropWhile_append_of_ne_nil {p : Char → Bool} : ∀ U V : List Char,
    U.dropWhile p ≠ [] → (U ++ V).dropWhile p = U.dropWhile p ++ V := by
  intro U V
  induction U with
  | nil =>
    intro h
    exact absurd rfl h
  | cons u U2 ih =>
    intro h
    by_cases hu : p u = true
    · rw [List.dropWhile_cons, if_pos hu] at h
      rw [List.cons_append, List.dropWhile_cons, if_pos hu,
        List.dropWhile_cons, if_pos hu]
      exact ih h
    · rw [List.cons_append, List.dropWhile_cons, if_neg hu,
        List.dropWhile_cons, if_neg hu]
      rfl

theorem pyStripL_ws_cons {w : Char} (hw : isPySpace w = true) (Y : List Char) :
    pyStripL (w :: Y) = pyStripL Y := by
  unfold pyStripL
  rw [List.dropWhile_cons, if_pos hw]

theorem pyStripL_nonws (R : List Char) (hR : ∀ c ∈ R, isPySpace c = false) :
    pyStripL R = R :=
  pyStripL_eq_self (fun c hc => hR c (head?_mem hc)) (fun c hc => hR c (getLast?_mem hc))

theorem pyStripL_run_space (R : List Char) (hR : ∀ c ∈ R, isPySpace c = false)
    (hne : R ≠ []) : pyStripL (R ++ [' ']) = R := by
  obtain ⟨r, R2, rfl⟩ := List.exists_cons_of_ne_nil hne
  unfold pyStripL
  rw [List.cons_append, List.dropWhile_cons, if_neg (by simp [hR r (by simp)])]
  rw [show (r :: (R2 ++ [' '])) = (r :: R2) ++ [' '] from by simp]
  rw [List.reverse_append]
  rw [show (([' '] : List Char).reverse ++ (r :: R2).reverse)
      = ' ' :: (r :: R2).reverse from by simp]
  rw [List.dropWhile_cons, if_pos (show isPySpace ' ' = true from rfl)]
  rw [show (r :: R2).reverse.dropWhile isPySpace = (r :: R2).reverse from ?_]
  · exact List.reverse_reverse _
  · cases hrev : (r :: R2).reverse with
    | nil => simp at hrev
    | cons x xs =>
      have hx : x ∈ r :: R2 := by
        have hxm : x ∈ (r :: R2).reverse := by
          rw [hrev]
          simp
        rw [List.mem_reverse] at hxm
        exact hxm
      exact dropWhile_cons_not (hR x hx) xs

theorem pyStrip_append_inner (R X : List Char)
    (hRhead : ∃ r R2, R = r :: R2 ∧ isPySpace r = false)
    (hXhead : ∃ x X2, X = x :: X2 ∧ isPySpace x = false) :
    pyStripL (R ++ ' ' :: X) = R ++ ' ' :: pyStripL X := by
  obtain ⟨r, R2, rfl, hr⟩ := hRhead
  obtain ⟨x, X2, rfl, hx⟩ := hXhead
  have hD : (x :: X2).reverse.dropWhile isPySpace ≠ [] := by
    intro hcontra
    have hall := List.dropWhile_eq_nil_iff.mp hcontra
    have hxw : isPySpace x = true := hall x (by simp)
    rw [hxw] at hx
    exact absurd hx (by simp)
  unfold pyStripL
  rw [List.cons_append, List.dropWhile_cons, if_neg (by simp [hr])]
  rw [show (r :: (R2 ++ ' ' :: (x :: X2))) = (r :: R2) ++ ' ' :: (x :: X2) from by simp]
  rw [List.reverse_append]
  rw [show ((' ' :: (x :: X2) : List Char)).reverse = (x :: X2).reverse ++ [' '] from by simp]
  rw [List.append_assoc]
  rw [dropWhile_append_of_ne_nil _ _ hD]
  rw [List.reverse_append]
  rw [show (([' '] ++ (r :: R2).reverse : List Char)).reverse
      = (r :: R2) ++ [' '] from by simp]
  rw [show List.dropWhile isPySpace (x :: X2) = x :: X2 from dropWhile_cons_not hx X2]
  simp [List.append_assoc]

theorem strip_collapse_runs : ∀ f : Nat, ∀ m : List Char, m.length < f →
    pyStripL (collapseWsL m) = List.intercalate [' '] (wsRuns f m) := by
  intro f
  induction f with
  | zero =>
    intro m h
    exact absurd h (by omega)
  | succ f ih =>
    intro m h
    cases m with
    | nil =>
      rw [wsRuns_nil, intercalate_nil_runs]
      rfl
    | cons c tl =>
      by_cases hc : isPySpace c = true
      · rw [wsRuns_ws hc]
        have hstep : pyStripL (collapseWsL (c :: tl)) = pyStripL (collapseWsL tl) := by
          cases tl with
          | nil =>
            rw [show collapseWsL [c] = [' '] from by simp [collapseWsL, hc]]
            rfl
          | cons d tl2 =>
            by_cases hd : isPySpace d = true
            · rw [show collapseWsL (c :: d :: tl2) = collapseWsL (d :: tl2) from by
                simp [collapseWsL, hc, hd]]
            · rw [show collapseWsL (c :: d :: tl2) = ' ' :: collapseWsL (d :: tl2) from by
                simp [collapseWsL, hc, Bool.of_not_eq_true hd]]
              exact pyStripL_ws_cons (show isPySpace ' ' = true from rfl) _
        rw [hstep]
        exact ih tl (by simp [List.length_cons] at h; omega)
      · have hcf : isPySpace c = false := Bool.of_not_eq_true hc
        rw [wsRuns_word hcf]
        have hRnw : ∀ x ∈ (c :: tl).takeWhile (fun d => !(isPySpace d)),
            isPySpace x = false := by
          intro x hx
          have hxp := List.mem_takeWhile_imp hx
          simpa using hxp
        have hRcons : (c :: tl).takeWhile (fun d => !(isPySpace d))
            = c :: tl.takeWhile (fun d => !(isPySpace d)) := by
          rw [List.takeWhile_cons, if_pos (by simp [hcf])]
        have hRne : (c :: tl).takeWhile (fun d => !(isPySpace d)) ≠ [] := by
          rw [hRcons]
          simp
        have hsplit : (c :: tl) = (c :: tl).takeWhile (fun d => !(isPySpace d))
            ++ (c :: tl).dropWhile (fun d => !(isPySpace d)) :=
          (List.takeWhile_append_dropWhile (p := fun d => !(isPySpace d)) (l := c :: tl)).symm
        have hSlen : ((c :: tl).dropWhile (fun d => !(isPySpace d))).length ≤ tl.length := by
          rw [show (c :: tl).dropWhile (fun d => !(isPySpace d))
              = tl.dropWhile (fun d => !(isPySpace d)) from by
            rw [List.dropWhile_cons, if_pos (by simp [hcf])]]
          exact dropWhile_length_le _ tl
        conv_lhs => rw [hsplit]
        rw [collapse_word_run _ _ hRnw]
        cases hS : (c :: tl).dropWhile (fun d => !(isPySpace d)) with
        | nil =>
          rw [show collapseWsL ([] : List Char) = [] from rfl, List.append_nil]
          rw [pyStripL_nonws _ hRnw, wsRuns_nil, intercalate_single]
        | cons s S2 =>
          have hs : isPySpace s = true := by
            have hh := head_dropWhile_not (p := fun d => !(isPySpace d))
              (l := c :: tl) s (by rw [hS]; rfl)
            simpa using hh
          rw [collapse_ws_head (s :: S2) hs (by simp)]
          have hSlen2 : (s :: S2).length ≤ tl.length := by
            rw [← hS]
            exact hSlen
          cases hT : (s :: S2).dropWhile isPySpace with
          | nil =>
            have hSws : ∀ x ∈ s :: S2, isPySpace x = true :=
              fun x hx => List.dropWhile_eq_nil_iff.mp hT x hx
            rw [show collapseWsL ([] : List Char) = [] from rfl]
            rw [pyStripL_run_space _ hRnw hRne]
            rw [wsRuns_all_ws f (s :: S2)
              (by simp [List.length_cons] at h hSlen2 ⊢; omega) hSws]
            rw [intercalate_single]
          | cons t T2 =>
            have ht : isPySpace t = false := head_dropWhile_not t (by rw [hT]; rfl)
            have hlenT : (t :: T2).length < f := by
              have h1 : (t :: T2).length ≤ S2.length := by
                rw [← hT, List.dropWhile_cons, if_pos hs]
                exact dropWhile_length_le _ S2
              simp [List.length_cons] at h h1 hSlen2 ⊢
              omega
            rw [pyStrip_append_inner _ _
              ⟨c, tl.takeWhile (fun d => !(isPySpace d)), hRcons, hcf⟩
              ⟨t, collapseWsL T2, collapse_cons_not_ws ht T2, ht⟩]
            rw [ih (t :: T2) hlenT]
            have hruns : wsRuns f (s :: S2) = wsRuns f (t :: T2) := by
              rw [wsRuns_drop_ws f (s :: S2)
                (by simp [List.length_cons] at h hSlen2 ⊢; omega), hT]
            rw [hruns]
            cases f with
            | zero => exact absurd hlenT (by omega)
            | succ fp =>
              rw [wsRuns_word ht fp T2]
              rw [intercalate_cons2]


theorem ws_not_brace {c : Char} (hc : isPySpace c = true) :
    (!(c == '{' || c == '}')) = true := by
  by_cases h1 : c = '{'
  · subst h1
    simp [isPySpace] at hc
  · by_cases h2 : c = '}'
    · subst h2
      simp [isPySpace] at hc
    · simp [h1, h2]

theorem runs_filter_strip (T : List Char) (f : Nat)
    (hf : (T.filter (fun c => !(c == '{' || c == '}'))).length < f) :
    wsRuns f ((pyStripL T).filter (fun c => !(c == '{' || c == '}')))
      = wsRuns f (T.filter (fun c => !(c == '{' || c == '}'))) := by
  have hT1 : T = T.takeWhile isPySpace ++ T.dropWhile isPySpace :=
    (List.takeWhile_append_dropWhile (p := isPySpace) (l := T)).symm
  have hU : T.dropWhile isPySpace
      = pyStripL T ++ ((T.dropWhile isPySpace).reverse.takeWhile isPySpace).reverse := by
    conv_lhs => rw [← List.reverse_reverse (T.dropWhile isPySpace),
      ← List.takeWhile_append_dropWhile (p := isPySpace)
        (l := (T.dropWhile isPySpace).reverse)]
    rw [List.reverse_append]
    rfl
  have hTall : T = T.takeWhile isPySpace
      ++ (pyStripL T ++ ((T.dropWhile isPySpace).reverse.takeWhile isPySpace).reverse) := by
    rw [← hU]
    exact hT1
  have hPws : ∀ c ∈ T.takeWhile isPySpace, isPySpace c = true :=
    fun c hc => List.mem_takeWhile_imp hc
  have hW2ws : ∀ c ∈ ((T.dropWhile isPySpace).reverse.takeWhile isPySpace).reverse,
      isPySpace c = true := by
    intro c hc
    rw [List.mem_reverse] at hc
    exact List.mem_takeWhile_imp hc
  have hfq : T.filter (fun c => !(c == '{' || c == '}'))
      = T.takeWhile isPySpace
        ++ ((pyStripL T).filter (fun c => !(c == '{' || c == '}'))
          ++ ((T.dropWhile isPySpace).reverse.takeWhile isPySpace).reverse) := by
    conv_lhs => rw [hTall]
    rw [List.filter_append, List.filter_append]
    rw [List.filter_eq_self.mpr (fun a ha => ws_not_brace (hPws a ha))]
    rw [List.filter_eq_self.mpr (fun a ha => ws_not_brace (hW2ws a ha))]
  rw [hfq]
  have hlen1 : (T.takeWhile isPySpace
      ++ ((pyStripL T).filter (fun c => !(c == '{' || c == '}'))
        ++ ((T.dropWhile isPySpace).reverse.takeWhile isPySpace).reverse)).length < f := by
    rw [← hfq]
    exact hf
  rw [wsRuns_skip_ws_front f _ _ hlen1 hPws]
  rw [wsRuns_ws_suffix f _ _ (by simp [List.length_append] at hlen1 ⊢; omega) hW2ws]

/-- C8 (amended): for every record, title extraction returns exactly the
whitespace-separated runs of the brace-free title value joined by single
spaces — i.e. the title field's value (empty when the field is absent) with
ALL brace characters removed, every maximal internal whitespace run collapsed
to a single space, and surrounding whitespace trimmed.  The function is
total, so no exception is possible. -/
theorem get_title_collapses_runs (e : BibtexEntry) :
    e.get_title
      = String.mk (List.intercalate [' ']
          (wsRuns
            (((e.getField "title").data.filter
                (fun c => !(c == '{' || c == '}'))).length + 1)
            ((e.getField "title").data.filter (fun c => !(c == '{' || c == '}')))))
    ∧ (List.lookup "title" e.fields = none → e.get_title = "") := by
  have hdata : e.get_title.data
      = pyStripL (collapseWsL ((pyStripL (e.getField "title").data).filter
          (fun c => !(c == '{' || c == '}')))) := rfl
  have hflen : ((pyStripL (e.getField "title").data).filter
        (fun c => !(c == '{' || c == '}'))).length
      ≤ ((e.getField "title").data.filter (fun c => !(c == '{' || c == '}'))).length := by
    have hsub : List.Sublist (pyStripL (e.getField "title").data)
        (e.getField "title").data := (pyStrip_within _).sublist
    exact List.Sublist.length_le (hsub.filter _)
  have hmain : e.get_title.data
      = List.intercalate [' ']
          (wsRuns
            (((e.getField "title").data.filter
                (fun c => !(c == '{' || c == '}'))).length + 1)
            ((e.getField "title").data.filter (fun c => !(c == '{' || c == '}')))) := by
    rw [hdata]
    rw [strip_collapse_runs
      (((e.getField "title").data.filter (fun c => !(c == '{' || c == '}'))).length + 1)
      _ (by omega)]
    rw [runs_filter_strip _ _ (by omega)]
  constructor
  · apply String.ext
    exact hmain
  · intro h
    have hf0 : e.getField "title" = "" := by simp [BibtexEntry.getField, h]
    apply String.ext
    rw [hdata, hf0]
    rfl

theorem get_title_collapses_runs_witness :
    (BibtexEntry.mk "article" "k" [("title", "  a  \x7bb\x7d  c ")]).get_title = "a b c"
    ∧ List.lookup "title" ([("year", "2020")] : List (String × String)) = none
    ∧ (BibtexEntry.mk "misc" "z" [("year", "2020")]).get_title = "" :=
  ⟨by
      rw [(get_title_collapses_runs (BibtexEntry.mk "article" "k"
        [("title", "  a  \x7bb\x7d  c ")])).1]
      decide,
    by decide,
    (get_title_collapses_runs (BibtexEntry.mk "misc" "z" [("year", "2020")])).2 (by decide)⟩
